import Mathlib

/-!
Verification of the cpptoml library (skystrife/cpptoml, single-header TOML
v0.4.0 parser and printer) against its natural-language specification.

The development is a shallow embedding of `cpptoml.h`:

* strings are embedded as `List Char`; a C++ iterator range `[it, end)` into
  the current line is embedded as the suffix list of remaining characters;
* the type-erased class hierarchy (`base` / `value<T>` / `array` / `table` /
  `table_array`) is embedded as the inductive `Node`; `table`'s
  `std::unordered_map` is embedded as an association list whose
  `map_[key] = value` assignment replaces in place or appends;
* `int64_t` is embedded as `Int` with the explicit range checks that
  `std::stoll` performs; `double` values are represented by their cleaned
  source text, since no claim depends on float arithmetic;
* every `throw_parse_exception` site is one constructor of `PErr`;
* the unbounded mutual recursion of the value parsers is bounded by an
  explicit fuel parameter (`PErr.fuelExhausted` models stack exhaustion and
  is unreachable for fuel larger than the input size).
-/

namespace Cpptoml

/-- Convenience: the character list of a string literal. -/
def chars (s : String) : List Char := s.data

/-- Left and right curly braces, used by the inline-table parser. -/
def lbrace : Char := Char.ofNat 123

def rbrace : Char := Char.ofNat 125

/-- The `datetime` struct of cpptoml.h (all fields C++ `int`). -/
structure datetime where
  year : Int := 0
  month : Int := 0
  day : Int := 0
  hour : Int := 0
  minute : Int := 0
  second : Int := 0
  microsecond : Int := 0
  hour_offset : Int := 0
  minute_offset : Int := 0
  deriving DecidableEq

/-- The type-erased value tree of cpptoml.h: `value<std::string>`,
`value<int64_t>`, `value<double>`, `value<bool>`, `value<datetime>`,
`array`, `table` and `table_array`.  A `table` is an association list
embedding `std::unordered_map<std::string, std::shared_ptr<base>>`; a
`table_array` is a list of tables.  A `double` is carried as its cleaned
source text (see the file header). -/
inductive Node where
  | str (s : List Char)
  | int (n : Int)
  | float (raw : List Char)
  | bool (b : Bool)
  | date (d : datetime)
  | arr (elems : List Node)
  | table (entries : List (List Char × Node))
  | tarray (tables : List (List (List Char × Node)))

/-- `cpptoml::table`'s underlying map, as an association list. -/
abbrev Table := List (List Char × Node)

/-- `base::is_value()`: true exactly for the five `value<T>` leaves
(`array`, `table` and `table_array` all keep the default `false`). -/
def is_value : Node → Bool
  | .str _ => true
  | .int _ => true
  | .float _ => true
  | .bool _ => true
  | .date _ => true
  | _ => false

/-- `table::get` / `map_.at`, total version: `none` embeds the
`std::out_of_range` throw for a missing key. -/
def get : Table → List Char → Option Node
  | [], _ => none
  | (k', v) :: rest, k => if k' = k then some v else get rest k

/-- `table::contains`: `map_.find(key) != map_.end()`. -/
def contains (t : Table) (k : List Char) : Bool := (get t k).isSome

/-- `table::insert`: `map_[key] = value` — replaces an existing entry in
place, appends a new one, never fails. -/
def insert : Table → List Char → Node → Table
  | [], k, v => [(k, v)]
  | (k', v') :: rest, k, v =>
      if k' = k then (k, v) :: rest else (k', v') :: insert rest k v

/-- `table::empty`: `map_.empty()`. -/
def empty (t : Table) : Bool := t.isEmpty

/-- `table::split(value, separator)`: splits on every occurrence of the
separator (one more part than separators, empty parts preserved). -/
def split (sep : Char) : List Char → List (List Char)
  | [] => [[]]
  | c :: rest =>
      match split sep rest with
      | [] => [[]]
      | p :: ps => if c = sep then [] :: p :: ps else (c :: p) :: ps

/-- `table::get_table`: the entry for the key, when present and a table. -/
def get_table (t : Table) (k : List Char) : Option Table :=
  match get t k with
  | some (.table tb) => some tb
  | _ => none

/-- The table walk inside `table::resolve_qualified`: descend through
`get_table` for each non-final part (`none` embeds the
`std::out_of_range` throw when an intermediate is absent or not a table). -/
def qual_walk : Table → List (List Char) → Option Table
  | t, [] => some t
  | t, p :: ps =>
      match get_table t p with
      | some t' => qual_walk t' ps
      | none => none

/-- `table::resolve_qualified` (output-parameter form): split on `'.'`,
walk all parts but the last through tables only, then look up the last
part.  `none` embeds the `std::out_of_range` throw. -/
def resolve_qualified (t : Table) (key : List Char) : Option Node :=
  let parts := split '.' key
  match qual_walk t parts.dropLast with
  | some tb => get tb (parts.getLastD [])
  | none => none

/-- `table::get_qualified`. -/
def get_qualified (t : Table) (key : List Char) : Option Node :=
  resolve_qualified t key

/-! ### Decimal printing of integers

`value<int64_t>::print` is `stream << data_`, i.e. the decimal
representation with a leading `'-'` for negative values.  `nat_to_dec`
spells out that representation for the magnitude. -/

/-- Digit character for a value `< 10`. -/
def digit_char (d : Nat) : Char := Char.ofNat (48 + d)

/-- Decimal digits of a natural number, most significant first, with an
explicit fuel bound so that the definition is structural (any fuel `≥ n`
yields the same digits, see `nat_to_dec_go_irrel`). -/
def nat_to_dec_go : Nat → Nat → List Char
  | 0, n => [digit_char n]
  | f + 1, n =>
      if n < 10 then [digit_char n]
      else nat_to_dec_go f (n / 10) ++ [digit_char (n % 10)]

/-- Decimal digits of a natural number, most significant first
(the rendering `operator<<` produces for a non-negative integer). -/
def nat_to_dec (n : Nat) : List Char := nat_to_dec_go n n

/-- `stream << (int64_t)n`: decimal with a leading minus for negatives. -/
def int_to_dec (n : Int) : List Char :=
  if n < 0 then '-' :: nat_to_dec n.natAbs else nat_to_dec n.natAbs

/-- `os << setw(w)` with `os.fill('0')` and the default right adjustment:
pad the rendered text on the left with `'0'` up to width `w`. -/
def pad (w : Nat) (s : List Char) : List Char :=
  List.replicate (w - s.length) '0' ++ s

/-- Specification-side decimal reading of a digit list (most significant
first); used to state what the printed digits denote. -/
def nat_val (s : List Char) : Nat :=
  s.foldl (fun a c => 10 * a + (c.toNat - 48)) 0

/-- Specification-side decimal reading of an optionally signed digit
list. -/
def read_dec : List Char → Int
  | '-' :: r => -(nat_val r : Int)
  | s => (nat_val s : Int)

/-! ### The printer

`table::print(stream, depth)` (the private overload), `array::print`,
`table_array::print(stream, depth, key)`, `value<T>::print` and
`operator<<(std::ostream&, const datetime&)`, lines 166–196, 331–348,
433–444, 694–697, 747–784 of the header. -/

/-- `operator<<(std::ostream&, const datetime&)`: zero-padded RFC-3339
fields, fractional part iff `microsecond > 0`, `Z` iff both offsets are
zero, sign `+` iff `hour_offset > 0`. -/
def print_datetime (dt : datetime) : List Char :=
  pad 4 (int_to_dec dt.year) ++ '-' :: pad 2 (int_to_dec dt.month)
    ++ '-' :: pad 2 (int_to_dec dt.day) ++ 'T' :: pad 2 (int_to_dec dt.hour)
    ++ ':' :: pad 2 (int_to_dec dt.minute) ++ ':' :: pad 2 (int_to_dec dt.second)
    ++ (if dt.microsecond > 0 then '.' :: pad 6 (int_to_dec dt.microsecond) else [])
    ++ (if dt.hour_offset ≠ 0 ∨ dt.minute_offset ≠ 0 then
          (if dt.hour_offset > 0 then '+' else '-')
            :: pad 2 (nat_to_dec dt.hour_offset.natAbs)
            ++ ':' :: pad 2 (nat_to_dec dt.minute_offset.natAbs)
        else ['Z'])

/-- `depth` tab characters: `std::string(depth, '\t')`. -/
def tabs (depth : Nat) : List Char := List.replicate depth '\t'

/-- The output of the datetime stream operator for a zero-offset
datetime, in right-nested form (used to relate printing and parsing). -/
def rfc3339_text (y mo dd hh mi se mu : Int) : List Char :=
  pad 4 (int_to_dec y) ++ '-' :: (pad 2 (int_to_dec mo)
    ++ '-' :: (pad 2 (int_to_dec dd) ++ 'T' :: (pad 2 (int_to_dec hh)
    ++ ':' :: (pad 2 (int_to_dec mi) ++ ':' :: (pad 2 (int_to_dec se)
    ++ ((if 0 < mu then '.' :: pad 6 (int_to_dec mu) else []) ++ ['Z']))))))

mutual

/-- `base::print` through virtual dispatch: `value<T>::print` for the five
leaf types (`stream << data_`, with the `bool` specialization printing
`true`/`false` and the `datetime` stream operator), `array::print` for
arrays; a bare table or table array prints via its public zero-depth
overload. -/
def print_node : Node → List Char
  | .str s => s
  | .int n => int_to_dec n
  | .float raw => raw
  | .bool b => if b then chars "true" else chars "false"
  | .date d => print_datetime d
  | .arr xs => '[' :: ' ' :: print_arr_elems xs
  | .table t => print_table_body 0 t
  | .tarray ts => print_table_array 0 [] ts

/-- The element loop of `array::print`: elements separated by `", "`,
closed by `" ]"` (an empty array prints as `[  ]`). -/
def print_arr_elems : List Node → List Char
  | [] => [' ', ']']
  | [x] => print_node x ++ [' ', ']']
  | x :: y :: rest => print_node x ++ ',' :: ' ' :: print_arr_elems (y :: rest)

/-- `table::print(stream, depth)`: for each entry, a table array prints
via `table_array::print(stream, depth, key)`; otherwise the line
`tabs key = ` followed by either a newline and the sub-table body at
`depth + 1`, or the value text and a newline. -/
def print_table_body (depth : Nat) : List (List Char × Node) → List Char
  | [] => []
  | (k, .tarray ts) :: rest =>
      print_table_array depth k ts ++ print_table_body depth rest
  | (k, .table t) :: rest =>
      tabs depth ++ k ++ chars " = " ++ '\n' :: print_table_body (depth + 1) t
        ++ print_table_body depth rest
  | (k, n) :: rest =>
      tabs depth ++ k ++ chars " = " ++ print_node n ++ '\n'
        :: print_table_body depth rest

/-- `table_array::print(stream, depth, key)`: `[[key]]` once per element,
each element's body at `depth + 1`. -/
def print_table_array (depth : Nat) (k : List Char) :
    List (List (List Char × Node)) → List Char
  | [] => []
  | t :: rest =>
      tabs depth ++ chars "[[" ++ k ++ chars "]]" ++ '\n'
        :: print_table_body (depth + 1) t ++ print_table_array depth k rest

end

/-- `operator<<(std::ostream&, const table&)` / `table::print(stream)`:
the whole document printed from the root at depth 0. -/
def print_root (t : Table) : List Char := print_table_body 0 t

/-! ### The parser: error kinds and lexical primitives

One constructor per distinct `throw_parse_exception` message of the
`parser` class (messages hold interpolated key names in the source; the
kind alone is what the claims are about, so payloads are dropped).
`fuelExhausted` is the extra constructor modelling stack exhaustion of
the unbounded C++ recursion; it is unreachable for fuel above the input
size. -/

inductive PErr where
  /-- "Unexpected end of table" -/
  | unexpectedEndOfTable
  /-- "Table name cannot be empty" -/
  | tableNameEmpty
  /-- "Empty component of table name" -/
  | emptyComponentOfTableName
  /-- "Table array name cannot be empty" -/
  | tableArrayNameEmpty
  /-- "Empty component of table array name" -/
  | emptyComponentOfTableArrayName
  /-- "Key … already exists as a value" (header traversal) -/
  | keyExistsAsValue
  /-- "Redefinition of table …" -/
  | redefinitionOfTable
  /-- "Key … is not a table array" -/
  | keyNotTableArray
  /-- "Unterminated table array name" -/
  | unterminatedTableArrayName
  /-- "Key … already present" -/
  | keyAlreadyPresent
  /-- "Value must follow after a '='" -/
  | valueMustFollowEquals
  /-- "Failed to parse value type" -/
  | failedToParseValueType
  /-- "Malformed number" (underscore misplacement / empty digit run) -/
  | malformedNumber
  /-- "Malformed number (invalid argument: …)" -/
  | malformedNumberInvalidArg
  /-- "Malformed number (out of range: …)" -/
  | malformedNumberOutOfRange
  /-- "Floats must have trailing digits" -/
  | floatsMustHaveTrailingDigits
  /-- "Attempted to parse invalid boolean value" -/
  | invalidBooleanValue
  /-- "Malformed date" -/
  | malformedDate
  /-- "Unterminated string literal" -/
  | unterminatedStringLiteral
  /-- "Invalid escape sequence" -/
  | invalidEscapeSequence
  /-- "Unterminated multi-line basic string" -/
  | unterminatedMultilineString
  /-- "Unable to parse array" (the `default:` of `parse_array`'s switch) -/
  | unableToParseArray
  /-- "Arrays must be heterogeneous" (element of the wrong kind) -/
  | arraysMustBeHeterogeneous
  /-- "Unexpected character in array" -/
  | unexpectedCharacterInArray
  /-- "Unterminated array" -/
  | unterminatedArray
  /-- "Unclosed array" (stream exhausted inside `skip_whitespace_and_comments`) -/
  | unclosedArray
  /-- "Unterminated inline table" -/
  | unterminatedInlineTable
  /-- "Unidentified trailing character …" (`eol_or_comment`) -/
  | unidentifiedTrailingChar
  /-- "Bare key … cannot contain #" -/
  | bareKeyHash
  /-- "Bare key … cannot contain whitespace" -/
  | bareKeyWhitespace
  /-- "Bare key … cannot contain '[' or ']'" -/
  | bareKeyBrackets
  /-- fuel ran out (models C++ stack exhaustion; unreachable for fuel above the input size) -/
  | fuelExhausted
  deriving DecidableEq

/-- The null character: the value a dereference of a `std::string` end
iterator observes in practice (`data()[size()]` is `'\0'`); used wherever
the C++ code dereferences a possibly-past-the-end iterator. -/
def nullch : Char := Char.ofNat 0

/-- `parser::is_number`: `'0' <= c && c <= '9'`, i.e. code point between
48 and 57. -/
def is_number (c : Char) : Bool := 48 ≤ c.toNat && c.toNat ≤ 57

/-- `parser::consume_whitespace`: drop spaces and tabs. -/
def consume_whitespace (s : List Char) : List Char :=
  s.dropWhile (fun c => c == ' ' || c == '\t')

/-- `parser::eol_or_comment`: the rest of the line must be empty or a
comment. -/
def eol_or_comment (s : List Char) : Except PErr Unit :=
  if s.isEmpty || s.headD nullch == '#' then .ok () else .error .unidentifiedTrailingChar

/-- The escape table of `parser::parse_escape_code`: `\b \t \n \f \r \" \\`.
`none` is the "Invalid escape sequence" throw (`\u`/`\U` included). -/
def esc_char (c : Char) : Option Char :=
  if c = 'b' then some (Char.ofNat 8)
  else if c = 't' then some '\t'
  else if c = 'n' then some '\n'
  else if c = 'f' then some (Char.ofNat 12)
  else if c = 'r' then some (Char.ofNat 13)
  else if c = '"' then some '"'
  else if c = '\\' then some '\\'
  else none

/-- The loop of `parser::string_literal` after the opening delimiter has
been skipped: escape processing iff the delimiter is `"`, stop at the
first (unescaped) delimiter, then consume trailing whitespace; running
off the line end is "Unterminated string literal". -/
def string_literal_go (delim : Char) : List Char → Except PErr (List Char × List Char)
  | [] => .error .unterminatedStringLiteral
  | c :: rest =>
      if delim = '"' ∧ c = '\\' then
        match rest with
        | [] => .error .invalidEscapeSequence
        | e :: rest2 =>
            match esc_char e with
            | none => .error .invalidEscapeSequence
            | some v =>
                (string_literal_go delim rest2).map (fun vr => (v :: vr.1, vr.2))
      else if c = delim then .ok ([], consume_whitespace rest)
      else (string_literal_go delim rest).map (fun vr => (c :: vr.1, vr.2))

/-- `parser::string_literal(it, end, delim)`: `++it`, then the scan loop. -/
def string_literal (delim : Char) (s : List Char) : Except PErr (List Char × List Char) :=
  string_literal_go delim (s.drop 1)

/-- `parser::parse_bare_key`: trim trailing whitespace (the backwards walk
stops at the front, so an all-whitespace slice keeps its first character),
then reject `#`, whitespace and brackets. -/
def parse_bare_key (s : List Char) : Except PErr (List Char) :=
  let t := (s.reverse.dropWhile (fun c => c == ' ' || c == '\t')).reverse
  let key := if t.isEmpty ∧ ¬ s.isEmpty then s.take 1 else t
  if key.any (fun c => c == '#') then .error .bareKeyHash
  else if key.any (fun c => c == ' ' || c == '\t') then .error .bareKeyWhitespace
  else if key.any (fun c => c == '[' || c == ']') then .error .bareKeyBrackets
  else .ok key

/-- `parser::parse_key`: after whitespace, a quoted key is a basic string
literal; a bare key is everything up to the first character satisfying
the supplied terminator predicate. -/
def parse_key (s : List Char) (term : Char → Bool) : Except PErr (List Char × List Char) :=
  let s1 := consume_whitespace s
  if s1.headD nullch == '"' then string_literal '"' s1
  else
    match parse_bare_key (s1.takeWhile (fun c => !term c)) with
    | .error e => .error e
    | .ok k => .ok (k, s1.dropWhile (fun c => !term c))

/-! ### Number parsing -/

/-- The `eat_sign` lambda of `parser::parse_number`: consume one optional
`+`/`-`, returning it and the rest. -/
def eat_sign : List Char → List Char × List Char
  | '-' :: r => (['-'], r)
  | '+' :: r => (['+'], r)
  | s => ([], s)

/-- The loop of the `eat_numbers` lambda of `parser::parse_number`:
consume a digit run in which every `_` must sit between two digits
("Malformed number" otherwise); returns the consumed characters
(underscores included) and the rest. -/
def eat_numbers_go : List Char → Except PErr (List Char × List Char)
  | [] => .ok ([], [])
  | c :: rest =>
      if ¬ is_number c then .ok ([], c :: rest)
      else
        match rest with
        | [] => .ok ([c], [])
        | c2 :: rest2 =>
            if c2 = '_' then
              match rest2 with
              | [] => .error .malformedNumber
              | d :: _ =>
                  if is_number d then
                    (eat_numbers_go rest2).map (fun vr => (c :: '_' :: vr.1, vr.2))
                  else .error .malformedNumber
            else (eat_numbers_go (c2 :: rest2)).map (fun vr => (c :: vr.1, vr.2))

/-- The `eat_numbers` lambda: the consumed run must be non-empty
(`check_it == beg` is "Malformed number"). -/
def eat_numbers (s : List Char) : Except PErr (List Char × List Char) :=
  match eat_numbers_go s with
  | .error e => .error e
  | .ok (cs, r) => if cs.isEmpty then .error .malformedNumber else .ok (cs, r)

/-- Characters `std::isspace` accepts in the default locale (the
whitespace `std::stoll` skips). -/
def is_cspace (c : Char) : Bool :=
  c == ' ' || c == '\t' || c == '\n' || c == Char.ofNat 11 || c == Char.ofNat 12 || c == Char.ofNat 13

/-- `std::stoll` on the cleaned text: skip whitespace, optional sign, a
non-empty digit run (`invalid_argument` otherwise), reject values outside
`[-2^63, 2^63 - 1]` (`out_of_range`).  Trailing non-digits are ignored,
exactly as `stoll` without a `pos` argument ignores them. -/
def stoll_model (v : List Char) : Except PErr Int :=
  let v1 := v.dropWhile is_cspace
  let neg := v1.headD nullch == '-'
  let v2 := if v1.headD nullch == '-' || v1.headD nullch == '+' then v1.drop 1 else v1
  let ds := v2.takeWhile is_number
  if ds.isEmpty then .error .malformedNumberInvalidArg
  else
    let val : Int := if neg then -(nat_val ds : Int) else (nat_val ds : Int)
    if val < -(2 ^ 63) ∨ 2 ^ 63 - 1 < val then .error .malformedNumberOutOfRange
    else .ok val

/-- `parser::parse_int`: strip `_`, convert with `std::stoll`; both
`std::invalid_argument` and `std::out_of_range` become "Malformed number
(…)" parse errors. -/
def parse_int (v : List Char) : Except PErr Node :=
  (stoll_model (v.filter (fun c => !(c == '_')))).map Node.int

/-- `parser::parse_float`: strip `_` and convert with `std::stold`.  The
resulting `double` is represented by the cleaned source text (see the
file header); the conversion itself is not modelled, as no claim depends
on float values. -/
def parse_float (v : List Char) : Except PErr Node :=
  .ok (Node.float (v.filter (fun c => !(c == '_'))))

/-- `parser::parse_number`: optional sign, digit run, then float syntax
(fraction and/or exponent) or integer; hands the consumed slice to
`parse_float` / `parse_int`. -/
def parse_number (s : List Char) : Except PErr (Node × List Char) :=
  let sg_s1 := eat_sign s
  match eat_numbers sg_s1.2 with
  | .error e => .error e
  | .ok (d1, s2) =>
      let c1 := s2.headD nullch
      if c1 == '.' || c1 == 'e' || c1 == 'E' then
        let isExp := c1 == 'e' || c1 == 'E'
        let s3 := s2.drop 1
        if s3.isEmpty then .error .floatsMustHaveTrailingDigits
        else
          let sg2_s4 := if isExp then eat_sign s3 else ([], s3)
          match eat_numbers sg2_s4.2 with
          | .error e => .error e
          | .ok (d2, s5) =>
              let c2 := s5.headD nullch
              if ¬ isExp ∧ (c2 == 'e' || c2 == 'E') then
                let sg3_s7 := eat_sign (s5.drop 1)
                match eat_numbers sg3_s7.2 with
                | .error e => .error e
                | .ok (d3, s8) =>
                    match parse_float (sg_s1.1 ++ d1 ++ c1 :: sg2_s4.1 ++ d2
                        ++ c2 :: sg3_s7.1 ++ d3) with
                    | .error e => .error e
                    | .ok n => .ok (n, s8)
              else
                match parse_float (sg_s1.1 ++ d1 ++ c1 :: sg2_s4.1 ++ d2) with
                | .error e => .error e
                | .ok n => .ok (n, s5)
      else
        match parse_int (sg_s1.1 ++ d1) with
        | .error e => .error e
        | .ok n => .ok (n, s2)

/-- `parser::parse_bool`: the token up to whitespace or `#` must be
exactly `true` or `false`. -/
def parse_bool (s : List Char) : Except PErr (Node × List Char) :=
  let stop : Char → Bool := fun c => c == ' ' || c == '\t' || c == '#'
  let v := s.takeWhile (fun c => !stop c)
  if v = chars "true" then .ok (.bool true, s.dropWhile (fun c => !stop c))
  else if v = chars "false" then .ok (.bool false, s.dropWhile (fun c => !stop c))
  else .error .invalidBooleanValue

/-! ### Date parsing

`parser::find_end_of_date`, `parser::is_date` (the
`!CPPTOML_HAS_STD_REGEX` branch) and `parser::parse_date`.

`parse_date` is embedded with the cursor as a suffix of the date region
plus a running position counter (the offset from the `it` the function
was entered with), and it additionally records the position of every
`*it` dereference performed inside the `eat_digits` lambda — the subject
of the implicit-safety claim about reads at `date_end`.  `date_end` is
the position `find_end_of_date` returns, so the character there is never
a digit: it is either past the line end or outside the date character
class. -/

/-- The character class of `find_end_of_date`. -/
def is_date_char (c : Char) : Bool :=
  is_number c || c == 'T' || c == 'Z' || c == ':' || c == '-' || c == '+' || c == '.'

/-- `parser::find_end_of_date`, as the offset of the first position whose
character is outside the date class (the length of the matching prefix). -/
def find_end_of_date (s : List Char) : Nat :=
  (s.takeWhile is_date_char).length

/-- `parser::is_date` (the non-`std::regex` shape test): the prefix up to
`find_end_of_date` has length at least 20 and `-`, `-`, `T`, `:`, `:` at
positions 4, 7, 10, 13, 16. -/
def is_date (s : List Char) : Bool :=
  let m := s.takeWhile is_date_char
  m.length ≥ 20 && m.getD 4 nullch == '-' && m.getD 7 nullch == '-'
    && m.getD 10 nullch == 'T' && m.getD 13 nullch == ':' && m.getD 16 nullch == ':'

/-- A traced computation: a result plus the list of positions the
`eat_digits` lambda dereferenced. -/
def TR (α : Type) : Type := Except PErr α × List Nat

/-- Sequencing of traced computations (traces concatenate). -/
def trBind (x : TR α) (f : α → TR β) : TR β :=
  match x with
  | (.error e, tr) => (.error e, tr)
  | (.ok a, tr) => ((f a).1, tr ++ (f a).2)

/-- A trace-free step. -/
def trLift (x : Except PErr α) : TR α := (x, [])

/-- The `eat_digits` lambda of `parser::parse_date`: read `len` digits,
dereferencing `*it` before the `it == date_end` test on every iteration
(both tests throw "Malformed date").  The suffix is the remaining date
region (empty iff `it == date_end`); `pos` is the current offset and is
recorded for every dereference. -/
def eat_digits (acc pos : Nat) : List Char → Nat → TR (Nat × Nat × List Char)
  | s, 0 => (.ok (acc, pos, s), [])
  | [], _ + 1 => (.error .malformedDate, [pos])
  | c :: s, len + 1 =>
      if ¬ is_number c then (.error .malformedDate, [pos])
      else
        let r := eat_digits (10 * acc + (c.toNat - 48)) (pos + 1) s len
        (r.1, pos :: r.2)

/-- The `eat` lambda of `parser::parse_date`: `it == date_end` is tested
before the dereference, then the character must match. -/
def eat_ch (c : Char) (pos : Nat) : List Char → Except PErr (Nat × List Char)
  | [] => .error .malformedDate
  | c' :: s => if c' ≠ c then .error .malformedDate else .ok (pos + 1, s)

/-- The fractional-second loop of `parser::parse_date`
(`while (it != date_end && is_number(*it))`). -/
def eat_micros (acc : Int) (pos : Nat) : List Char → Int × Nat × List Char
  | [] => (acc, pos, [])
  | c :: s =>
      if is_number c then eat_micros (10 * acc + ((c.toNat : Int) - 48)) (pos + 1) s
      else (acc, pos, c :: s)

/-- `parser::parse_date` with the `eat_digits` dereference trace.  The
date region is `cur.take (find_end_of_date cur)`; `bchar` is the
character a dereference at `date_end` observes (the first character
outside the region, or the practical `'\0'` of a past-the-end
dereference).  On success the cursor is left at `date_end`. -/
def parse_date_t (cur : List Char) : TR (datetime × List Char) :=
  let n := find_end_of_date cur
  let dp := cur.take n
  let rest := cur.drop n
  let bchar := rest.headD nullch
  trBind (eat_digits 0 0 dp 4) fun ys =>
  trBind (trLift (eat_ch '-' ys.2.1 ys.2.2)) fun p1 =>
  trBind (eat_digits 0 p1.1 p1.2 2) fun mos =>
  trBind (trLift (eat_ch '-' mos.2.1 mos.2.2)) fun p2 =>
  trBind (eat_digits 0 p2.1 p2.2 2) fun ds =>
  trBind (trLift (eat_ch 'T' ds.2.1 ds.2.2)) fun p3 =>
  trBind (eat_digits 0 p3.1 p3.2 2) fun hs =>
  trBind (trLift (eat_ch ':' hs.2.1 hs.2.2)) fun p4 =>
  trBind (eat_digits 0 p4.1 p4.2 2) fun mins =>
  trBind (trLift (eat_ch ':' mins.2.1 mins.2.2)) fun p5 =>
  trBind (eat_digits 0 p5.1 p5.2 2) fun secs =>
  let s0 := secs.2.2
  let micro_p_s :=
    if s0.headD bchar = '.' then eat_micros 0 (secs.2.1 + 1) (s0.drop 1)
    else (0, secs.2.1, s0)
  let s1 := micro_p_s.2.2
  trBind (trLift (if s1.isEmpty then .error .malformedDate else .ok ())) fun _ =>
  let c := s1.headD bchar
  let base : datetime :=
    { year := ys.1, month := mos.1, day := ds.1, hour := hs.1,
      minute := mins.1, second := secs.1, microsecond := micro_p_s.1 }
  if c = '+' ∨ c = '-' then
    let plus := c = '+'
    trBind (eat_digits 0 (micro_p_s.2.1 + 1) (s1.drop 1) 2) fun hoffs =>
    trBind (trLift (eat_ch ':' hoffs.2.1 hoffs.2.2)) fun p6 =>
    trBind (eat_digits 0 p6.1 p6.2 2) fun moffs =>
    trLift
      (if ¬ moffs.2.2.isEmpty then .error .malformedDate
       else .ok
         ({ base with
              hour_offset := if plus then (hoffs.1 : Int) else -(hoffs.1 : Int),
              minute_offset := if plus then (moffs.1 : Int) else -(moffs.1 : Int) },
          rest))
  else if c = 'Z' then
    trLift
      (if ¬ (s1.drop 1).isEmpty then .error .malformedDate
       else .ok (base, rest))
  else
    trLift (.error .malformedDate)

/-- `parser::parse_date`, trace dropped (what `parse_value` uses). -/
def parse_date (cur : List Char) : Except PErr (datetime × List Char) :=
  (parse_date_t cur).1

/-! ### Value-type dispatch -/

/-- The `parse_type` enum of the parser. -/
inductive parse_type where
  | STRING | DATE | INT | FLOAT | BOOL | ARRAY | INLINE_TABLE
  deriving DecidableEq

/-- `parser::determine_number_type`: skip a sign and a digit run; a `.`
next means FLOAT, anything else INT. -/
def determine_number_type (s : List Char) : parse_type :=
  let s1 := if s.headD nullch == '-' || s.headD nullch == '+' then s.drop 1 else s
  let s2 := s1.dropWhile is_number
  if s2.headD nullch == '.' then .FLOAT else .INT

/-- `parser::determine_value_type`, dispatching on the region the caller
passes (the whole rest of the line, or the slice up to `,`/`]`/`#`
inside an array). -/
def determine_value_type (s : List Char) : Except PErr parse_type :=
  let c := s.headD nullch
  if c == '"' || c == '\'' then .ok .STRING
  else if is_date s then .ok .DATE
  else if is_number c || c == '-' || c == '+' then .ok (determine_number_type s)
  else if c == 't' || c == 'f' then .ok .BOOL
  else if c == '[' then .ok .ARRAY
  else if c == lbrace then .ok .INLINE_TABLE
  else .error .failedToParseValueType

/-! ### Multi-line strings

`parser::parse_multiline_string`.  The parser state from here on is the
remaining current line (the iterator range `[it, end)`) together with
the list of not-yet-read lines of the input stream (`getline` pops the
next one). -/

/-- Result of the `handle_line` lambda on one line: the terminator was
found (with the accumulated chunk and the rest of the line), or the line
was exhausted (with the chunk and the whitespace-escaping `consuming`
flag). -/
inductive MLStep where
  | done (chunk : List Char) (rest : List Char)
  | more (chunk : List Char) (consuming : Bool)

/-- Prepend an emitted character to a `handle_line` outcome. -/
def ml_prepend (c : Char) : MLStep → MLStep
  | .done chunk rest => .done (c :: chunk) rest
  | .more chunk consuming => .more (c :: chunk) consuming

/-- The character loop of the `handle_line` lambda: escapes (for basic
strings) with a bare trailing backslash setting the `consuming` flag,
then the three-delimiter terminator test, else emit the character. -/
def ml_loop (delim : Char) : List Char → Except PErr MLStep
  | [] => .ok (.more [] false)
  | c :: rest =>
      if delim = '"' ∧ c = '\\' then
        match rest with
        | [] => .ok (.more [] true)
        | e :: rest2 =>
            match esc_char e with
            | none => .error .invalidEscapeSequence
            | some v => (ml_loop delim rest2).map (ml_prepend v)
      else
        match rest with
        | b :: c2 :: r3 =>
            if c = delim ∧ b = delim ∧ c2 = delim then .ok (.done [] r3)
            else (ml_loop delim rest).map (ml_prepend c)
        | _ => (ml_loop delim rest).map (ml_prepend c)

/-- The `handle_line` lambda: when the previous line ended in a
whitespace-escaping backslash, skip leading whitespace and give up on an
all-whitespace line (keeping the flag). -/
def ml_line (delim : Char) (consuming : Bool) (line : List Char) : Except PErr MLStep :=
  if consuming then
    let it := consume_whitespace line
    if it.isEmpty then .ok (.more [] true)
    else ml_loop delim it
  else ml_loop delim line

/-- The `getline` loop of `parser::parse_multiline_string`: after each
non-terminating pulled line, append a newline unless the `consuming`
flag is set; exhausting the stream is "Unterminated multi-line basic
string". -/
def ml_lines (delim : Char) (acc : List Char) (consuming : Bool) :
    List (List Char) → Except PErr (Node × List Char × List (List Char))
  | [] => .error .unterminatedMultilineString
  | l :: rest =>
      match ml_line delim consuming l with
      | .error e => .error e
      | .ok (.done chunk r) => .ok (.str (acc ++ chunk), r, rest)
      | .ok (.more chunk consuming2) =>
          ml_lines delim (acc ++ chunk ++ (if consuming2 then [] else ['\n']))
            consuming2 rest

/-- `parser::parse_multiline_string`, entered just after the opening
three delimiters: handle the remainder of the current line (with no
newline appended after it), then eat lines. -/
def parse_multiline_string (delim : Char) (cur : List Char)
    (lines : List (List Char)) : Except PErr (Node × List Char × List (List Char)) :=
  match ml_line delim false cur with
  | .error e => .error e
  | .ok (.done chunk r) => .ok (.str chunk, r, lines)
  | .ok (.more chunk consuming) => ml_lines delim chunk consuming lines

/-- `parser::parse_string`: three identical quote characters select the
multi-line form (the cursor moving past them); otherwise a single-line
literal from the opening quote. -/
def parse_string (cur : List Char) (lines : List (List Char)) :
    Except PErr (Node × List Char × List (List Char)) :=
  match cur with
  | a :: b :: c2 :: rest =>
      if b = a ∧ c2 = a then parse_multiline_string a rest lines
      else (string_literal a cur).map (fun vr => (Node.str vr.1, vr.2, lines))
  | _ => (string_literal (cur.headD nullch) cur).map (fun vr => (Node.str vr.1, vr.2, lines))

/-! ### Whitespace/comment skipping across lines -/

/-- The `getline` part of `parser::skip_whitespace_and_comments`: pull
lines while they are blank or comments; an exhausted stream is "Unclosed
array". -/
def skip_lines : List (List Char) → Except PErr (List Char × List (List Char))
  | [] => .error .unclosedArray
  | l :: rest =>
      let s := consume_whitespace l
      if s.isEmpty || s.headD nullch == '#' then skip_lines rest
      else .ok (s, rest)

/-- `parser::skip_whitespace_and_comments`. -/
def skip_ws_comments (cur : List Char) (lines : List (List Char)) :
    Except PErr (List Char × List (List Char)) :=
  let s := consume_whitespace cur
  if s.isEmpty || s.headD nullch == '#' then skip_lines lines
  else .ok (s, lines)

/-! ### The mutually recursive value parsers

`parser::parse_value`, `parse_array`, `parse_value_array<T>`,
`parse_object_array<Object>` (its two instantiations),
`parse_inline_table` and `parse_key_value`.  The C++ recursion is
unbounded; each embedded call consumes one unit of fuel. -/

/-- The scalar kinds `value<T>` can carry; `base::as<T>()` succeeds
exactly when the node is a `value<T>`. -/
inductive ValKind where
  | kstr | kint | kfloat | kbool | kdate
  deriving DecidableEq

/-- `base::as<T>() != nullptr` for the kind `T`. -/
def node_is_kind : Node → ValKind → Bool
  | .str _, .kstr => true
  | .int _, .kint => true
  | .float _, .kfloat => true
  | .bool _, .kbool => true
  | .date _, .kdate => true
  | _, _ => false

mutual

/-- `parser::parse_value`: dispatch on `determine_value_type` over the
rest of the line. -/
def parse_value : Nat → List Char → List (List Char) →
    Except PErr (Node × List Char × List (List Char))
  | 0, _, _ => .error .fuelExhausted
  | fuel + 1, cur, lines =>
      match determine_value_type cur with
      | .error e => .error e
      | .ok .STRING => parse_string cur lines
      | .ok .DATE => (parse_date cur).map (fun dr => (Node.date dr.1, dr.2, lines))
      | .ok .INT => (parse_number cur).map (fun nr => (nr.1, nr.2, lines))
      | .ok .FLOAT => (parse_number cur).map (fun nr => (nr.1, nr.2, lines))
      | .ok .BOOL => (parse_bool cur).map (fun nr => (nr.1, nr.2, lines))
      | .ok .ARRAY => parse_array fuel cur lines
      | .ok .INLINE_TABLE =>
          (parse_inline_table fuel cur lines).map (fun tr => (Node.table tr.1, tr.2.1, tr.2.2))

/-- `parser::parse_array`: skip `[` and any blank/comment lines, handle
the empty array, then dispatch on the type of the first element
(determined on the slice up to `,`/`]`/`#`).  The switch has cases for
STRING, INT, FLOAT, DATE, ARRAY and INLINE_TABLE only — BOOL falls into
the `default:` and throws "Unable to parse array". -/
def parse_array : Nat → List Char → List (List Char) →
    Except PErr (Node × List Char × List (List Char))
  | 0, _, _ => .error .fuelExhausted
  | fuel + 1, cur, lines =>
      match skip_ws_comments (cur.drop 1) lines with
      | .error e => .error e
      | .ok (s, ls) =>
          if s.headD nullch == ']' then .ok (.arr [], s.drop 1, ls)
          else
            match determine_value_type (s.takeWhile (fun c => !(c == ',' || c == ']' || c == '#'))) with
            | .error e => .error e
            | .ok .STRING =>
                (parse_value_array fuel .kstr s ls).map (fun xr => (Node.arr xr.1, xr.2.1, xr.2.2))
            | .ok .INT =>
                (parse_value_array fuel .kint s ls).map (fun xr => (Node.arr xr.1, xr.2.1, xr.2.2))
            | .ok .FLOAT =>
                (parse_value_array fuel .kfloat s ls).map (fun xr => (Node.arr xr.1, xr.2.1, xr.2.2))
            | .ok .DATE =>
                (parse_value_array fuel .kdate s ls).map (fun xr => (Node.arr xr.1, xr.2.1, xr.2.2))
            | .ok .ARRAY =>
                (parse_nested_array fuel s ls).map (fun xr => (Node.arr xr.1, xr.2.1, xr.2.2))
            | .ok .INLINE_TABLE =>
                (parse_ta_array fuel s ls).map (fun xr => (Node.tarray xr.1, xr.2.1, xr.2.2))
            | .ok .BOOL => .error .unableToParseArray

/-- `parser::parse_value_array<T>`: elements must coerce to `value<T>`
("Arrays must be heterogeneous" otherwise); after the loop the next
character (if any) is skipped unconditionally. -/
def parse_value_array : Nat → ValKind → List Char → List (List Char) →
    Except PErr (List Node × List Char × List (List Char))
  | 0, _, _, _ => .error .fuelExhausted
  | fuel + 1, kind, s, ls =>
      if s.isEmpty || s.headD nullch == ']' then
        .ok ([], if s.isEmpty then s else s.drop 1, ls)
      else
        match parse_value fuel s ls with
        | .error e => .error e
        | .ok (v, r, ls1) =>
            if ¬ node_is_kind v kind then .error .arraysMustBeHeterogeneous
            else
              match skip_ws_comments r ls1 with
              | .error e => .error e
              | .ok (r2, ls2) =>
                  if ¬ (r2.headD nullch == ',') then .ok ([v], r2.drop 1, ls2)
                  else
                    match skip_ws_comments (r2.drop 1) ls2 with
                    | .error e => .error e
                    | .ok (r3, ls3) =>
                        match parse_value_array fuel kind r3 ls3 with
                        | .error e => .error e
                        | .ok (xs, r4, ls4) => .ok (v :: xs, r4, ls4)

/-- `parser::parse_object_array<array>(&parser::parse_array, '[', …)`:
an array whose elements are arrays; each element must open with `[`
("Unexpected character in array"), and the list must close with `]`
("Unterminated array"). -/
def parse_nested_array : Nat → List Char → List (List Char) →
    Except PErr (List Node × List Char × List (List Char))
  | 0, _, _ => .error .fuelExhausted
  | fuel + 1, s, ls =>
      if s.isEmpty || s.headD nullch == ']' then
        match s with
        | ']' :: rr => .ok ([], rr, ls)
        | _ => .error .unterminatedArray
      else
        if ¬ (s.headD nullch == '[') then .error .unexpectedCharacterInArray
        else
          match parse_array fuel s ls with
          | .error e => .error e
          | .ok (v, r, ls1) =>
              match skip_ws_comments r ls1 with
              | .error e => .error e
              | .ok (r2, ls2) =>
                  if ¬ (r2.headD nullch == ',') then
                    match r2 with
                    | ']' :: rr => .ok ([v], rr, ls2)
                    | _ => .error .unterminatedArray
                  else
                    match skip_ws_comments (r2.drop 1) ls2 with
                    | .error e => .error e
                    | .ok (r3, ls3) =>
                        match parse_nested_array fuel r3 ls3 with
                        | .error e => .error e
                        | .ok (xs, r4, ls4) => .ok (v :: xs, r4, ls4)

/-- `parser::parse_object_array<table_array>(&parser::parse_inline_table,
'{', …)`: an array of inline tables builds a `table_array`. -/
def parse_ta_array : Nat → List Char → List (List Char) →
    Except PErr (List Table × List Char × List (List Char))
  | 0, _, _ => .error .fuelExhausted
  | fuel + 1, s, ls =>
      if s.isEmpty || s.headD nullch == ']' then
        match s with
        | ']' :: rr => .ok ([], rr, ls)
        | _ => .error .unterminatedArray
      else
        if ¬ (s.headD nullch == lbrace) then .error .unexpectedCharacterInArray
        else
          match parse_inline_table fuel s ls with
          | .error e => .error e
          | .ok (v, r, ls1) =>
              match skip_ws_comments r ls1 with
              | .error e => .error e
              | .ok (r2, ls2) =>
                  if ¬ (r2.headD nullch == ',') then
                    match r2 with
                    | ']' :: rr => .ok ([v], rr, ls2)
                    | _ => .error .unterminatedArray
                  else
                    match skip_ws_comments (r2.drop 1) ls2 with
                    | .error e => .error e
                    | .ok (r3, ls3) =>
                        match parse_ta_array fuel r3 ls3 with
                        | .error e => .error e
                        | .ok (xs, r4, ls4) => .ok (v :: xs, r4, ls4)

/-- The do-while loop of `parser::parse_inline_table`: skip the `{` (or
the separating `,`), fail on end of line, parse a key/value into the
growing table, and continue while a `,` follows; finally a `}` must
close the table. -/
def parse_inline_table_go : Nat → Table → List Char → List (List Char) →
    Except PErr (Table × List Char × List (List Char))
  | 0, _, _, _ => .error .fuelExhausted
  | fuel + 1, tbl, cur, lines =>
      if (cur.drop 1).isEmpty then .error .unterminatedInlineTable
      else
        match parse_key_value fuel tbl (consume_whitespace (cur.drop 1)) lines with
        | .error e => .error e
        | .ok (tbl2, r, ls) =>
            let r2 := consume_whitespace r
            if r2.headD nullch == ',' then parse_inline_table_go fuel tbl2 r2 ls
            else
              match r2 with
              | [] => .error .unterminatedInlineTable
              | c :: rr =>
                  if c ≠ rbrace then .error .unterminatedInlineTable
                  else .ok (tbl2, consume_whitespace rr, ls)

/-- `parser::parse_inline_table`: the do-while loop from an empty
table. -/
def parse_inline_table : Nat → List Char → List (List Char) →
    Except PErr (Table × List Char × List (List Char))
  | 0, _, _ => .error .fuelExhausted
  | fuel + 1, cur, lines => parse_inline_table_go fuel [] cur lines

/-- `parser::parse_key_value`: parse a key up to `=`, reject a key
already present in the current table ("Key … already present"), require
`=`, then parse the value and insert it. -/
def parse_key_value : Nat → Table → List Char → List (List Char) →
    Except PErr (Table × List Char × List (List Char))
  | 0, _, _, _ => .error .fuelExhausted
  | fuel + 1, curr, cur, lines =>
      match parse_key cur (fun c => c == '=') with
      | .error e => .error e
      | .ok (key, r) =>
          if contains curr key then .error .keyAlreadyPresent
          else if ¬ (r.headD nullch == '=') then .error .valueMustFollowEquals
          else
            match parse_value fuel (consume_whitespace (r.drop 1)) lines with
            | .error e => .error e
            | .ok (v, r2, ls2) => .ok (insert curr key v, consume_whitespace r2, ls2)

end

/-! ### Header parsing and the current-table path

The C++ parser keeps a raw `table*` cursor into the growing tree.  The
embedding represents the cursor as a path of steps from the root and
re-resolves it on use (`get_at`), rebuilding the tree on mutation
(`set_at`); `intoTA k i` records the descent into element `i` of the
table array at key `k`. -/

/-- One step of the current-table path. -/
inductive PathStep where
  | intoTable (k : List Char)
  | intoTA (k : List Char) (i : Nat)
  deriving DecidableEq

/-- The current-table path. -/
abbrev Path := List PathStep

/-- Resolve a path from a root table. -/
def get_at : Table → Path → Option Table
  | t, [] => some t
  | t, .intoTable k :: p =>
      match get t k with
      | some (.table t2) => get_at t2 p
      | _ => none
  | t, .intoTA k i :: p =>
      match get t k with
      | some (.tarray ts) =>
          match ts.get? i with
          | some t2 => get_at t2 p
          | none => none
      | _ => none

/-- Replace the table a path points at (identity when the path does not
resolve; the parser only ever uses valid paths). -/
def set_at : Table → Path → Table → Table
  | _, [], nt => nt
  | t, .intoTable k :: p, nt =>
      match get t k with
      | some (.table t2) => insert t k (.table (set_at t2 p nt))
      | _ => t
  | t, .intoTA k i :: p, nt =>
      match get t k with
      | some (.tarray ts) =>
          match ts.get? i with
          | some t2 => insert t k (.tarray (ts.set i (set_at t2 p nt)))
          | none => t
      | _ => t

/-- One dotted-header component, shared between `parser::parse_single_table`
(lines 903–922) and the traversal branch of `parser::parse_table_array`
(lines 998–1032): an existing table is descended into, an existing table
array is descended into at its last element (`->get().back()`), an
existing value is "Key … already exists as a value", and an absent key
creates an implicit empty table (reporting `inserted = true`). -/
def header_component (curr : Table) (part : List Char) :
    Except PErr (PathStep × Bool × Table) :=
  match get curr part with
  | some (.table _) => .ok (.intoTable part, false, curr)
  | some (.tarray ts) => .ok (.intoTA part (ts.length - 1), false, curr)
  | some _ => .error .keyExistsAsValue
  | none => .ok (.intoTable part, true, insert curr part (.table []))

/-- The component loop of `parser::parse_single_table`, followed by the
redefinition check: when no component was freshly inserted, the final
table must be non-empty and must hold no direct `value` entry, else
"Redefinition of table"; then `]`, whitespace and end-of-line or
comment. -/
def pst_go : Nat → List Char → Table → Path → Bool →
    Except PErr (Table × Path × List Char)
  | 0, _, _, _, _ => .error .fuelExhausted
  | fuel + 1, cur, root, path, inserted =>
      if cur.isEmpty || cur.headD nullch == ']' then
        let fin : Except PErr (Table × Path × List Char) :=
          let r := consume_whitespace (cur.drop 1)
          match eol_or_comment r with
          | .error e => .error e
          | .ok _ => .ok (root, path, r)
        if ¬ inserted then
          let curr := (get_at root path).getD []
          if empty curr || curr.any (fun p => is_value p.2) then
            .error .redefinitionOfTable
          else fin
        else fin
      else
        match parse_key cur (fun c => c == '.' || c == ']') with
        | .error e => .error e
        | .ok (part, r) =>
            if part.isEmpty then .error .emptyComponentOfTableName
            else
              match header_component ((get_at root path).getD []) part with
              | .error e => .error e
              | .ok (step, ins, curr2) =>
                  let root2 := set_at root path curr2
                  let r1 := consume_whitespace r
                  let r2 := if r1.headD nullch == '.' then r1.drop 1 else r1
                  pst_go fuel (consume_whitespace r2) root2 (path ++ [step])
                    (inserted || ins)

/-- `parser::parse_single_table`, entered just after the opening `[`:
an empty or immediately-closed name is "Table name cannot be empty". -/
def parse_single_table (cur : List Char) (root : Table) :
    Except PErr (Table × Path × List Char) :=
  if cur.isEmpty || cur.headD nullch == ']' then .error .tableNameEmpty
  else pst_go (cur.length + 1) cur root [] false

/-- The component loop of `parser::parse_table_array`: for the final
component (a `]` follows), an existing entry must be a table array
("Key … is not a table array" otherwise) and gets a fresh table
appended, an absent one becomes a new table array with one fresh table;
for a non-final component the traversal is the shared
`header_component`.  After the loop the two closing brackets are
consumed (each missing one is "Unterminated table array name"). -/
def pta_go : Nat → List Char → Table → Path →
    Except PErr (Table × Path × List Char)
  | 0, _, _, _ => .error .fuelExhausted
  | fuel + 1, cur, root, path =>
      if cur.isEmpty || cur.headD nullch == ']' then
        match cur with
        | [] => .error .unterminatedTableArrayName
        | _ :: rest =>
            match rest with
            | [] => .error .unterminatedTableArrayName
            | _ :: rest2 =>
                let r := consume_whitespace rest2
                match eol_or_comment r with
                | .error e => .error e
                | .ok _ => .ok (root, path, r)
      else
        match parse_key cur (fun c => c == '.' || c == ']') with
        | .error e => .error e
        | .ok (part, r) =>
            if part.isEmpty then .error .emptyComponentOfTableArrayName
            else
              let r1 := consume_whitespace r
              let r2 := if r1.headD nullch == '.' then r1.drop 1 else r1
              let r3 := consume_whitespace r2
              let curr := (get_at root path).getD []
              let isLast := ¬ r3.isEmpty ∧ r3.headD nullch == ']'
              match get curr part with
              | some b =>
                  if isLast then
                    match b with
                    | .tarray ts =>
                        let ts2 := ts ++ [[]]
                        pta_go fuel r3 (set_at root path (insert curr part (.tarray ts2)))
                          (path ++ [.intoTA part (ts2.length - 1)])
                    | _ => .error .keyNotTableArray
                  else
                    match header_component curr part with
                    | .error e => .error e
                    | .ok (step, _, curr2) =>
                        pta_go fuel r3 (set_at root path curr2) (path ++ [step])
              | none =>
                  if isLast then
                    pta_go fuel r3 (set_at root path (insert curr part (.tarray [[]])))
                      (path ++ [.intoTA part 0])
                  else
                    pta_go fuel r3 (set_at root path (insert curr part (.table [])))
                      (path ++ [.intoTable part])

/-- `parser::parse_table_array`, entered at the second `[`: skip it; an
empty or immediately-closed name is "Table array name cannot be
empty". -/
def parse_table_array (cur : List Char) (root : Table) :
    Except PErr (Table × Path × List Char) :=
  let c1 := cur.drop 1
  if c1.isEmpty || c1.headD nullch == ']' then .error .tableArrayNameEmpty
  else pta_go (c1.length + 1) c1 root []

/-- `parser::parse_table`, entered at the opening `[`: skip it; a second
`[` selects the table-array form. -/
def parse_table (cur : List Char) (root : Table) :
    Except PErr (Table × Path × List Char) :=
  let c1 := cur.drop 1
  if c1.isEmpty then .error .unexpectedEndOfTable
  else if c1.headD nullch == '[' then parse_table_array c1 root
  else parse_single_table c1 root

/-! ### The document loop -/

/-- `std::getline` splitting of the input text: one line per `\n`, the
final segment kept only when the text does not end in `\n`, no lines at
all for empty input. -/
def getlines_go (acc : List Char) : List Char → List (List Char)
  | [] => [acc.reverse]
  | c :: rest =>
      if c = '\n' then
        acc.reverse :: (match rest with | [] => [] | _ => getlines_go [] rest)
      else getlines_go (c :: acc) rest

/-- The lines `std::getline` yields for the input text. -/
def getlines : List Char → List (List Char)
  | [] => []
  | s => getlines_go [] s

/-- The main loop of `parser::parse`: skip blank and comment lines; a
line whose first non-whitespace character is `[` resets the cursor to
the root and parses a header; any other line is a key/value at the
current table, followed by optional whitespace and end-of-line or
comment.  `fuel` bounds the loop (value parsers may pull extra lines,
so the list of remaining lines is re-threaded); `vfuel` is the fuel
handed to the value-parser recursion. -/
def parse_lines : Nat → Nat → List (List Char) → Table → Path → Except PErr Table
  | _, _, [], root, _ => .ok root
  | 0, _, _ :: _, _, _ => .error .fuelExhausted
  | fuel + 1, vfuel, l :: rest, root, path =>
      let it := consume_whitespace l
      if it.isEmpty || it.headD nullch == '#' then parse_lines fuel vfuel rest root path
      else if it.headD nullch == '[' then
        match parse_table it root with
        | .error e => .error e
        | .ok (root2, path2, _) => parse_lines fuel vfuel rest root2 path2
      else
        match parse_key_value vfuel ((get_at root path).getD []) it rest with
        | .error e => .error e
        | .ok (curr2, r, rest2) =>
            match eol_or_comment (consume_whitespace r) with
            | .error e => .error e
            | .ok _ => parse_lines fuel vfuel rest2 (set_at root path curr2) path

/-- `parser::parse` on the full input text: split into lines and run the
main loop from an empty root with the cursor at the root.  The fuel
bounds are one beyond the line count and the character count, enough for
every run that the C++ parser finishes. -/
def parse (s : List Char) : Except PErr Table :=
  let ls := getlines s
  parse_lines (ls.length + 1) (s.length + 1) ls [] []


/-! ## Helper lemmas -/

/-- `insert` on a fresh key appends the entry. -/
theorem insert_of_not_contains (t : Table) (k : List Char) (v : Node)
    (h : contains t k = false) : insert t k v = t ++ [(k, v)] := by
  induction t with
  | nil => rfl
  | cons p rest ih =>
      obtain ⟨k', v'⟩ := p
      simp only [contains, get] at h
      by_cases hk : k' = k
      · simp [hk, Option.isSome] at h
      · simp only [insert, if_neg hk, List.cons_append, List.cons.injEq, true_and]
        exact ih (by simpa [contains, get, if_neg hk] using h)

/-- `get` after `insert` at the same key. -/
theorem get_insert_self (t : Table) (k : List Char) (v : Node) :
    get (insert t k v) k = some v := by
  induction t with
  | nil => simp [insert, get]
  | cons p rest ih =>
      obtain ⟨k', v'⟩ := p
      by_cases hk : k' = k
      · simp [insert, hk, get]
      · simp [insert, hk, get, ih]

/-- `split` never yields the empty list. -/
theorem split_ne_nil (sep : Char) (s : List Char) : split sep s ≠ [] := by
  cases s with
  | nil => simp [split]
  | cons c r =>
      simp only [split]
      cases h : split sep r with
      | nil => simp
      | cons p ps => by_cases hc : c = sep <;> simp [hc]

/-- `split` on a separator-free list. -/
theorem split_no_sep (sep : Char) (s : List Char) (h : sep ∉ s) :
    split sep s = [s] := by
  induction s with
  | nil => rfl
  | cons c r ih =>
      have hc : c ≠ sep := fun hc => h (hc ▸ List.mem_cons_self c r)
      have hr : sep ∉ r := fun hr => h (List.mem_cons_of_mem c hr)
      simp only [split, ih hr]
      simp [fun hcc => hc hcc]

/-- `split` peels one separator-free prefix. -/
theorem split_append_sep (sep : Char) (a r : List Char) (h : sep ∉ a) :
    split sep (a ++ sep :: r) = a :: split sep r := by
  induction a with
  | nil =>
      simp only [List.nil_append, split]
      cases hs : split sep r with
      | nil => exact absurd hs (split_ne_nil sep r)
      | cons p ps => simp
  | cons c a2 ih =>
      have hc : c ≠ sep := fun hc => h (hc ▸ List.mem_cons_self c a2)
      have ha : sep ∉ a2 := fun ha => h (List.mem_cons_of_mem c ha)
      simp only [List.cons_append, split, List.append_eq]
      rw [ih ha]
      simp [fun hcc => hc hcc]

/-- Code-point facts about a digit character. -/
theorem is_number_facts (c : Char) (h : is_number c = true) :
    is_cspace c = false ∧ (c == '-') = false ∧ (c == '+') = false
    ∧ (c == '_') = false ∧ (c == '\n') = false ∧ c ≠ '\n' ∧ (c == ' ') = false
    ∧ (c == '\t') = false ∧ (c == '#') = false ∧ (c == '=') = false
    ∧ (c == '"') = false ∧ (c == '[') = false ∧ (c == ']') = false
    ∧ (c == '.') = false ∧ (c == ',') = false ∧ c ≠ '-' := by
  simp only [is_number, Bool.and_eq_true, decide_eq_true_eq] at h
  have hne : ∀ d : Char, d.toNat < 48 ∨ 57 < d.toNat → (c == d) = false := by
    intro d hd
    cases hcd : c == d with
    | false => rfl
    | true =>
        have := congrArg Char.toNat (eq_of_beq hcd)
        omega
  have hne2 : ∀ d : Char, d.toNat < 48 ∨ 57 < d.toNat → c ≠ d := by
    intro d hd hcd
    have := congrArg Char.toNat hcd
    omega
  refine ⟨?_, hne '-' (by decide), hne '+' (by decide), hne '_' (by decide),
    hne '\n' (by decide), hne2 '\n' (by decide), hne ' ' (by decide),
    hne '\t' (by decide), hne '#' (by decide), hne '=' (by decide),
    hne '"' (by decide), hne '[' (by decide), hne ']' (by decide),
    hne '.' (by decide), hne ',' (by decide), hne2 '-' (by decide)⟩
  simp only [is_cspace, hne ' ' (by decide), hne '\t' (by decide),
    hne '\n' (by decide), hne (Char.ofNat 11) (by decide),
    hne (Char.ofNat 12) (by decide), hne (Char.ofNat 13) (by decide),
    Bool.or_self, Bool.or_false]

/-- `takeWhile` / `dropWhile` over a prefix on which the predicate
holds. -/
theorem takeWhile_append_of_all {p : Char → Bool} (a b : List Char)
    (h : ∀ c ∈ a, p c = true) :
    (a ++ b).takeWhile p = a ++ b.takeWhile p
    ∧ (a ++ b).dropWhile p = b.dropWhile p := by
  induction a with
  | nil => simp
  | cons c a2 ih =>
      have hc := h c (List.mem_cons_self c a2)
      have ih2 := ih (fun d hd => h d (List.mem_cons_of_mem c hd))
      simp [List.takeWhile_cons, List.dropWhile_cons, hc, ih2.1, ih2.2]

/-- `nat_to_dec_go` is fuel-irrelevant above its argument. -/
theorem nat_to_dec_go_irrel : ∀ f1 f2 n, n ≤ f1 → n ≤ f2 →
    nat_to_dec_go f1 n = nat_to_dec_go f2 n := by
  intro f1
  induction f1 with
  | zero =>
      intro f2 n h1 _
      have : n = 0 := Nat.le_zero.mp h1
      subst this
      cases f2 with
      | zero => rfl
      | succ g => simp [nat_to_dec_go]
  | succ m ih =>
      intro f2 n h1 h2
      cases f2 with
      | zero =>
          have : n = 0 := Nat.le_zero.mp h2
          subst this
          simp [nat_to_dec_go]
      | succ g =>
          by_cases hn : n < 10
          · simp [nat_to_dec_go, hn]
          · have hdiv : n / 10 < n := Nat.div_lt_self (by omega) (by omega)
            simp only [nat_to_dec_go, if_neg hn]
            rw [ih g (n / 10) (by omega) (by omega)]

/-- The recurrence of decimal printing. -/
theorem nat_to_dec_eq (n : Nat) :
    nat_to_dec n = if n < 10 then [digit_char n]
      else nat_to_dec (n / 10) ++ [digit_char (n % 10)] := by
  by_cases hn : n < 10
  · cases n with
    | zero => simp [nat_to_dec, nat_to_dec_go, hn]
    | succ m => simp [nat_to_dec, nat_to_dec_go, hn]
  · have hdiv : n / 10 < n := Nat.div_lt_self (by omega) (by omega)
    cases n with
    | zero => omega
    | succ m =>
        simp only [nat_to_dec, nat_to_dec_go, if_neg hn]
        congr 1
        apply nat_to_dec_go_irrel
        · omega
        · omega

/-- The code point of a digit character. -/
theorem digit_char_toNat (d : Nat) (h : d < 10) :
    (digit_char d).toNat = 48 + d := by
  interval_cases d <;> decide

/-- Digit characters satisfy `is_number`. -/
theorem is_number_digit_char (d : Nat) (h : d < 10) :
    is_number (digit_char d) = true := by
  interval_cases d <;> decide

/-- Appending one digit multiplies the read value by ten. -/
theorem nat_val_snoc (s : List Char) (c : Char) :
    nat_val (s ++ [c]) = 10 * nat_val s + (c.toNat - 48) := by
  simp [nat_val, List.foldl_append]

/-- Reading back the decimal digits of `n` yields `n`. -/
theorem nat_val_nat_to_dec (n : Nat) : nat_val (nat_to_dec n) = n := by
  induction n using Nat.strong_induction_on with
  | _ n ih =>
      rw [nat_to_dec_eq]
      by_cases h : n < 10
      · simp only [if_pos h, nat_val, List.foldl_cons, List.foldl_nil]
        rw [digit_char_toNat n h]
        omega
      · have hdiv : n / 10 < n := Nat.div_lt_self (by omega) (by omega)
        rw [if_neg h, nat_val_snoc, ih (n / 10) hdiv,
          digit_char_toNat (n % 10) (Nat.mod_lt n (by omega))]
        omega

/-- Decimal digits are never empty. -/
theorem nat_to_dec_ne_nil (n : Nat) : nat_to_dec n ≠ [] := by
  rw [nat_to_dec_eq]
  by_cases h : n < 10 <;> simp [h]

/-- Every character of the decimal rendering is a digit. -/
theorem nat_to_dec_all_digits (n : Nat) :
    ∀ c ∈ nat_to_dec n, is_number c = true := by
  induction n using Nat.strong_induction_on with
  | _ n ih =>
      rw [nat_to_dec_eq]
      by_cases h : n < 10
      · simp only [if_pos h, List.mem_singleton]
        intro c hc
        subst hc
        exact is_number_digit_char n h
      · have hdiv : n / 10 < n := Nat.div_lt_self (by omega) (by omega)
        rw [if_neg h]
        intro c hc
        rcases List.mem_append.mp hc with h1 | h1
        · exact ih (n / 10) hdiv c h1
        · rw [List.mem_singleton.mp h1]
          exact is_number_digit_char (n % 10) (Nat.mod_lt n (by omega))

/-- `n < 10^k` has at most `k` decimal digits (`k ≥ 1`). -/
theorem nat_to_dec_length_le (k : Nat) : ∀ n, 1 ≤ k → n < 10 ^ k →
    (nat_to_dec n).length ≤ k := by
  induction k with
  | zero => omega
  | succ m ih =>
      intro n _ hlt
      rw [nat_to_dec_eq]
      by_cases h : n < 10
      · simp [h]
      · have hdiv : n / 10 < 10 ^ m := by
          rw [Nat.div_lt_iff_lt_mul (by omega)]
          calc n < 10 ^ (m + 1) := hlt
            _ = 10 ^ m * 10 := by ring
        have hm : 1 ≤ m := by
          by_contra hm0
          have : m = 0 := by omega
          subst this
          simp at hdiv
          omega
        rw [if_neg h]
        simp only [List.length_append, List.length_singleton]
        have := ih (n / 10) hm hdiv
        omega

/-- Reading leading zeros changes nothing. -/
theorem nat_val_replicate_zero (m : Nat) (s : List Char) :
    nat_val (List.replicate m '0' ++ s) = nat_val s := by
  induction m with
  | zero => simp
  | succ k ih =>
      simp only [List.replicate_succ, List.cons_append]
      show nat_val ('0' :: (List.replicate k '0' ++ s)) = nat_val s
      simp only [nat_val, List.foldl_cons]
      have : (10 * 0 + ('0'.toNat - 48)) = 0 := by decide
      rw [this]
      exact ih

/-- Zero padding preserves the read value. -/
theorem nat_val_pad (w : Nat) (s : List Char) :
    nat_val (pad w s) = nat_val s :=
  nat_val_replicate_zero _ s

/-- Padded length. -/
theorem pad_length (w : Nat) (s : List Char) (h : s.length ≤ w) :
    (pad w s).length = w := by
  simp [pad]
  omega

/-- A padded digit string is all digits. -/
theorem pad_all_digits (w : Nat) (s : List Char)
    (h : ∀ c ∈ s, is_number c = true) :
    ∀ c ∈ pad w s, is_number c = true := by
  intro c hc
  rcases List.mem_append.mp hc with h1 | h1
  · rw [List.eq_of_mem_replicate h1]
    decide
  · exact h c h1

/-- `int_to_dec` of a non-negative integer. -/
theorem int_to_dec_nonneg (n : Int) (h : 0 ≤ n) :
    int_to_dec n = nat_to_dec n.natAbs := by
  simp [int_to_dec, Int.not_lt.mpr h]

/-- Reading back the printed decimal of any integer yields it. -/
theorem read_dec_int_to_dec (n : Int) : read_dec (int_to_dec n) = n := by
  by_cases h : n < 0
  · simp only [int_to_dec, if_pos h, read_dec, nat_val_nat_to_dec]
    omega
  · rw [int_to_dec_nonneg n (by omega)]
    obtain ⟨d, r, hd⟩ := List.exists_cons_of_ne_nil (nat_to_dec_ne_nil n.natAbs)
    have hdig : is_number d = true :=
      nat_to_dec_all_digits n.natAbs d (by rw [hd]; exact List.mem_cons_self d r)
    have hne : d ≠ '-' := (is_number_facts d hdig).2.2.2.2.2.2.2.2.2.2.2.2.2.2.2
    rw [hd]
    have hrd : read_dec (d :: r) = (nat_val (d :: r) : Int) := by
      simp only [read_dec]
      split
      next heq =>
        injection heq with h1 h2
        exact absurd h1 hne
      next => rfl
    rw [hrd, ← hd, nat_val_nat_to_dec]
    omega

/-- `eat_sign` without a sign character. -/
theorem eat_sign_no (s : List Char) (h1 : s.headD nullch ≠ '-')
    (h2 : s.headD nullch ≠ '+') : eat_sign s = ([], s) := by
  rw [eat_sign.eq_def]
  split
  next => exact absurd rfl h1
  next => exact absurd rfl h2
  next => rfl

/-- The digit-run scanner consumes an all-digit list completely. -/
theorem eat_numbers_go_digits (d : List Char)
    (h : ∀ c ∈ d, is_number c = true) : eat_numbers_go d = .ok (d, []) := by
  induction d with
  | nil => rfl
  | cons c rest ih =>
      have hc : is_number c = true := h c (List.mem_cons_self c rest)
      have hrest : ∀ x ∈ rest, is_number x = true :=
        fun x hx => h x (List.mem_cons_of_mem c hx)
      cases rest with
      | nil => simp [eat_numbers_go, hc]
      | cons c2 r2 =>
          have hc2 : is_number c2 = true := hrest c2 (List.mem_cons_self c2 r2)
          have hne : ¬ (c2 = '_') := by
            intro h0
            have := (is_number_facts c2 hc2).2.2.2.1
            rw [h0] at this
            simp at this
          simp [eat_numbers_go, hc, hne, ih hrest, Except.map]

/-- `eat_numbers` on a non-empty all-digit list. -/
theorem eat_numbers_digits (d : List Char) (hne : d ≠ [])
    (h : ∀ c ∈ d, is_number c = true) : eat_numbers d = .ok (d, []) := by
  simp [eat_numbers, eat_numbers_go_digits d h, hne]

/-- `std::stoll` on a pure non-empty digit list. -/
theorem stoll_digits (d : List Char) (hne : d ≠ [])
    (h : ∀ c ∈ d, is_number c = true) :
    stoll_model d
      = if (2 ^ 63 - 1 : Int) < (nat_val d : Int)
        then .error .malformedNumberOutOfRange else .ok (nat_val d : Int) := by
  obtain ⟨c, r, rfl⟩ := List.exists_cons_of_ne_nil hne
  have hc := is_number_facts c (h c (List.mem_cons_self c r))
  have htake : (c :: r).takeWhile is_number = c :: r :=
    List.takeWhile_eq_self_iff.mpr h
  unfold stoll_model
  simp only [List.dropWhile_cons, hc.1, Bool.false_eq_true, if_false,
    List.headD_cons, hc.2.1, hc.2.2.1, Bool.or_self, if_false, htake,
    List.isEmpty_cons, Bool.false_eq_true]
  have hnonneg : ¬ ((nat_val (c :: r) : Int) < -(2 ^ 63)) := by
    have : (0 : Int) ≤ (nat_val (c :: r) : Int) := Int.ofNat_nonneg _
    omega
  by_cases hbig : (2 ^ 63 - 1 : Int) < (nat_val (c :: r) : Int)
  · rw [if_pos hbig, if_pos (Or.inr hbig)]
  · rw [if_neg hbig, if_neg (by push_neg; push_neg at hbig hnonneg; omega)]

/-- `std::stoll` on a minus sign followed by digits. -/
theorem stoll_neg_digits (d : List Char) (hne : d ≠ [])
    (h : ∀ c ∈ d, is_number c = true) :
    stoll_model ('-' :: d)
      = if (-(nat_val d : Int)) < -(2 ^ 63)
        then .error .malformedNumberOutOfRange else .ok (-(nat_val d : Int)) := by
  have htake : d.takeWhile is_number = d := List.takeWhile_eq_self_iff.mpr h
  unfold stoll_model
  simp only [List.dropWhile_cons, show is_cspace '-' = false from rfl,
    Bool.false_eq_true, if_false, List.headD_cons,
    show ('-' == '-') = true from rfl, Bool.true_or, if_true, List.drop_one,
    List.tail_cons, htake, List.isEmpty_iff]
  rw [if_neg hne]
  have hnonneg : ¬ ((2 ^ 63 - 1 : Int) < -(nat_val d : Int)) := by
    have : (0 : Int) ≤ (nat_val d : Int) := Int.ofNat_nonneg _
    omega
  by_cases hsmall : (-(nat_val d : Int)) < -(2 ^ 63)
  · rw [if_pos hsmall, if_pos (Or.inl hsmall)]
  · rw [if_neg hsmall, if_neg (by push_neg; push_neg at hsmall hnonneg; omega)]

/-- A digit never equals a character with code point outside 48–57. -/
theorem digit_beq_false (c d : Char) (hc : is_number c = true)
    (hd : d.toNat < 48 ∨ 57 < d.toNat) : (c == d) = false := by
  simp only [is_number, Bool.and_eq_true, decide_eq_true_eq] at hc
  cases hcd : c == d with
  | false => rfl
  | true =>
      have := congrArg Char.toNat (eq_of_beq hcd)
      omega

/-- A digit is distinct from a character with code point outside 48–57. -/
theorem digit_ne (c d : Char) (hc : is_number c = true)
    (hd : d.toNat < 48 ∨ 57 < d.toNat) : c ≠ d := by
  intro h0
  have h1 := digit_beq_false c d hc hd
  rw [h0] at h1
  simp at h1

/-- `getD` over an all-digit list never reads `'-'`. -/
theorem getD_digits_ne_minus (d : List Char)
    (h : ∀ c ∈ d, is_number c = true) (i : Nat) :
    (d.getD i nullch == '-') = false := by
  by_cases hi : i < d.length
  · have hmem : d.getD i nullch ∈ d := by
      rw [List.getD_eq_getElem d nullch hi]
      exact List.getElem_mem hi
    exact (is_number_facts _ (h _ hmem)).2.1
  · rw [List.getD_eq_default d nullch (by omega)]
    rfl

/-- Digits are date characters. -/
theorem is_date_char_of_digit (c : Char) (h : is_number c = true) :
    is_date_char c = true := by
  simp [is_date_char, h]

/-- `is_date` rejects the decimal rendering of any integer: position 4 of
the matched prefix is a digit (or absent), never `'-'`. -/
theorem is_date_int_to_dec (n : Int) : is_date (int_to_dec n) = false := by
  have hdigits := nat_to_dec_all_digits n.natAbs
  by_cases h : n < 0
  · have hshape : int_to_dec n = '-' :: nat_to_dec n.natAbs := by
      simp [int_to_dec, if_pos h]
    have hall : ∀ c ∈ '-' :: nat_to_dec n.natAbs, is_date_char c = true := by
      intro c hc
      rcases List.mem_cons.mp hc with h1 | h1
      · rw [h1]; rfl
      · exact is_date_char_of_digit c (hdigits c h1)
    have htake : ('-' :: nat_to_dec n.natAbs).takeWhile is_date_char
        = '-' :: nat_to_dec n.natAbs := List.takeWhile_eq_self_iff.mpr hall
    rw [hshape]
    simp only [is_date, htake]
    rw [show (('-' :: nat_to_dec n.natAbs).getD 4 nullch)
        = (nat_to_dec n.natAbs).getD 3 nullch from rfl,
      getD_digits_ne_minus _ hdigits 3]
    simp
  · have hshape := int_to_dec_nonneg n (by omega)
    have hall : ∀ c ∈ nat_to_dec n.natAbs, is_date_char c = true :=
      fun c hc => is_date_char_of_digit c (hdigits c hc)
    have htake : (nat_to_dec n.natAbs).takeWhile is_date_char
        = nat_to_dec n.natAbs := List.takeWhile_eq_self_iff.mpr hall
    rw [hshape]
    simp only [is_date, htake]
    rw [getD_digits_ne_minus _ hdigits 4]
    simp

/-- `determine_value_type` on the decimal rendering of an integer. -/
theorem dvt_int_to_dec (n : Int) :
    determine_value_type (int_to_dec n) = .ok .INT := by
  have hdigits := nat_to_dec_all_digits n.natAbs
  have hdate := is_date_int_to_dec n
  by_cases h : n < 0
  · have hshape : int_to_dec n = '-' :: nat_to_dec n.natAbs := by
      simp [int_to_dec, if_pos h]
    rw [hshape] at hdate
    rw [hshape]
    simp only [determine_value_type, List.headD_cons,
      show (('-' == '"') || ('-' == '\'')) = false from rfl,
      Bool.false_eq_true, if_false, hdate,
      show (is_number '-' || ('-' == '-') || ('-' == '+')) = true from rfl, if_true]
    simp only [determine_number_type, List.headD_cons,
      show (('-' == '-') || ('-' == '+')) = true from rfl, if_true,
      List.drop_one, List.tail_cons]
    rw [List.dropWhile_eq_nil_iff.mpr (fun x hx => hdigits x hx)]
    rfl
  · have hshape := int_to_dec_nonneg n (by omega)
    rw [hshape] at hdate
    obtain ⟨c, r, hcr⟩ := List.exists_cons_of_ne_nil (nat_to_dec_ne_nil n.natAbs)
    have hcd : is_number c = true := hdigits c (by rw [hcr]; exact List.mem_cons_self c r)
    rw [hcr] at hdate
    rw [hshape, hcr]
    simp only [determine_value_type, List.headD_cons,
      digit_beq_false c '"' hcd (by decide), digit_beq_false c '\'' hcd (by decide),
      Bool.or_self, Bool.false_eq_true, if_false, hdate, hcd, Bool.true_or, if_true]
    simp only [determine_number_type, List.headD_cons,
      digit_beq_false c '-' hcd (by decide), digit_beq_false c '+' hcd (by decide),
      Bool.or_self, Bool.false_eq_true, if_false]
    rw [List.dropWhile_eq_nil_iff.mpr
      (fun x hx => hdigits x (by rw [hcr]; exact hx))]
    rfl

/-- `parse_number` on the decimal rendering of an `int64_t`-range
integer consumes the whole text and yields the integer back. -/
theorem parse_number_int (n : Int) (hlo : -(2 ^ 63) ≤ n) (hhi : n ≤ 2 ^ 63 - 1) :
    parse_number (int_to_dec n) = .ok (Node.int n, []) := by
  have hdigits := nat_to_dec_all_digits n.natAbs
  have hnn := nat_to_dec_ne_nil n.natAbs
  have hfilter : (nat_to_dec n.natAbs).filter (fun c => !(c == '_')) = nat_to_dec n.natAbs := by
    rw [List.filter_eq_self]
    intro c hcm
    simp [digit_beq_false c '_' (hdigits c hcm) (by decide)]
  by_cases h : n < 0
  · have hshape : int_to_dec n = '-' :: nat_to_dec n.natAbs := by
      simp [int_to_dec, if_pos h]
    have hfilter2 : List.filter (fun c => !(c == '_')) ('-' :: nat_to_dec n.natAbs)
        = '-' :: nat_to_dec n.natAbs := by
      rw [List.filter_cons]
      simp only [show (!('-' == '_')) = true from rfl, if_true, hfilter]
    have hval : -((nat_val (nat_to_dec n.natAbs) : Nat) : Int) = n := by
      rw [nat_val_nat_to_dec]
      omega
    rw [hshape]
    simp only [parse_number, eat_sign, eat_numbers_digits _ hnn hdigits,
      List.headD_nil]
    rw [show ((nullch == '.') || (nullch == 'e') || (nullch == 'E')) = false from rfl]
    simp only [Bool.false_eq_true, if_false, parse_int]
    rw [show (['-'] ++ nat_to_dec n.natAbs : List Char) = '-' :: nat_to_dec n.natAbs from rfl,
      hfilter2, stoll_neg_digits _ hnn hdigits, hval,
      if_neg (show ¬ (n < -(2 ^ 63)) from by omega)]
    rfl
  · have hshape := int_to_dec_nonneg n (by omega)
    obtain ⟨c, r, hcr⟩ := List.exists_cons_of_ne_nil hnn
    have hcd : is_number c = true := hdigits c (by rw [hcr]; exact List.mem_cons_self c r)
    have hsign : eat_sign (nat_to_dec n.natAbs) = ([], nat_to_dec n.natAbs) := by
      apply eat_sign_no
      · rw [hcr, List.headD_cons]
        exact digit_ne c '-' hcd (by decide)
      · rw [hcr, List.headD_cons]
        exact digit_ne c '+' hcd (by decide)
    have hval : ((nat_val (nat_to_dec n.natAbs) : Nat) : Int) = n := by
      rw [nat_val_nat_to_dec]
      omega
    rw [hshape]
    simp only [parse_number, hsign, eat_numbers_digits _ hnn hdigits, List.headD_nil]
    rw [show ((nullch == '.') || (nullch == 'e') || (nullch == 'E')) = false from rfl]
    simp only [Bool.false_eq_true, if_false, parse_int, List.nil_append, hfilter]
    rw [stoll_digits _ hnn hdigits, hval,
      if_neg (show ¬ ((2 ^ 63 - 1 : Int) < n) from by omega)]
    rfl

/-- First component of a successful traced bind. -/
theorem trBind_fst {α β : Type} (x : TR α) (f : α → TR β) (a : α)
    (h : x.1 = .ok a) : (trBind x f).1 = (f a).1 := by
  obtain ⟨r, tr⟩ := x
  cases r with
  | error e => simp at h
  | ok b =>
      simp only [Except.ok.injEq] at h
      subst h
      rfl

/-- Chain a successful traced bind with the continuation's result. -/
theorem tr_step {α β : Type} (x : TR α) (f : α → TR β) (a : α)
    (b : Except PErr β) (h : x.1 = .ok a) (h2 : (f a).1 = b) :
    (trBind x f).1 = b := (trBind_fst x f a h).trans h2

/-- `eat` succeeds on its expected character. -/
theorem eat_ch_cons (c : Char) (pos : Nat) (rest : List Char) :
    eat_ch c pos (c :: rest) = .ok (pos + 1, rest) := by
  simp [eat_ch]

/-- `eat_digits` consumes an all-digit block exactly. -/
theorem eat_digits_run (d : List Char) : ∀ (rest : List Char) (acc pos : Nat),
    (∀ c ∈ d, is_number c = true) →
    (eat_digits acc pos (d ++ rest) d.length).1
      = .ok (d.foldl (fun a c => 10 * a + (c.toNat - 48)) acc, pos + d.length, rest) := by
  induction d with
  | nil => intro rest acc pos _; simp [eat_digits]
  | cons c d2 ih =>
      intro rest acc pos h
      have hc : is_number c = true := h c (List.mem_cons_self c d2)
      simp only [List.cons_append, List.length_cons, eat_digits, hc,
        not_true_eq_false, Bool.false_eq_true, if_false,
        List.foldl_cons, List.append_eq]
      rw [show pos + (d2.length + 1) = (pos + 1) + d2.length from by omega]
      exact ih rest (10 * acc + (c.toNat - 48)) (pos + 1)
        (fun x hx => h x (List.mem_cons_of_mem c hx))

/-- The fractional-second loop consumes an all-digit block exactly. -/
theorem eat_micros_run (d : List Char) : ∀ (rest : List Char) (acc : Int) (pos : Nat),
    (∀ c ∈ d, is_number c = true) →
    (rest = [] ∨ is_number (rest.headD nullch) = false) →
    eat_micros acc pos (d ++ rest)
      = (d.foldl (fun a c => 10 * a + ((c.toNat : Int) - 48)) acc, pos + d.length, rest) := by
  induction d with
  | nil =>
      intro rest acc pos _ hrest
      rcases hrest with h | h
      · subst h
        simp [eat_micros]
      · cases rest with
        | nil => simp [eat_micros]
        | cons rh rt =>
            rw [List.headD_cons] at h
            simp [eat_micros, h]
  | cons c d2 ih =>
      intro rest acc pos h hrest
      have hc : is_number c = true := h c (List.mem_cons_self c d2)
      simp only [List.cons_append, eat_micros, hc, if_true, List.foldl_cons,
        List.length_cons, List.append_eq]
      rw [show pos + (d2.length + 1) = (pos + 1) + d2.length from by omega]
      exact ih rest (10 * acc + ((c.toNat : Int) - 48)) (pos + 1)
        (fun x hx => h x (List.mem_cons_of_mem c hx)) hrest

/-- Over digits, the `int`-typed fold agrees with the `Nat`-typed one. -/
theorem foldl_int_eq_nat (d : List Char) (h : ∀ c ∈ d, is_number c = true) :
    ∀ acc : Nat,
      d.foldl (fun a c => 10 * a + ((c.toNat : Int) - 48)) (acc : Int)
        = ((d.foldl (fun a c => 10 * a + (c.toNat - 48)) acc : Nat) : Int) := by
  induction d with
  | nil => intro acc; rfl
  | cons c d2 ih =>
      intro acc
      have hc : is_number c = true := h c (List.mem_cons_self c d2)
      have h48 : 48 ≤ c.toNat := by
        simp only [is_number, Bool.and_eq_true, decide_eq_true_eq] at hc
        omega
      simp only [List.foldl_cons]
      rw [show (10 * (acc : Int) + ((c.toNat : Int) - 48))
          = ((10 * acc + (c.toNat - 48) : Nat) : Int) from by push_cast [h48]; ring]
      exact ih (fun x hx => h x (List.mem_cons_of_mem c hx)) _

/-- A zero-padded non-negative field of width `w`: exact length, all
digits, and the value read back. -/
theorem field_block (x : Int) (w : Nat) (h1 : 0 ≤ x) (h2 : x.natAbs < 10 ^ w)
    (hw : 1 ≤ w) :
    (pad w (int_to_dec x)).length = w
    ∧ (∀ c ∈ pad w (int_to_dec x), is_number c = true)
    ∧ nat_val (pad w (int_to_dec x)) = x.natAbs := by
  rw [int_to_dec_nonneg x h1]
  refine ⟨pad_length w _ (nat_to_dec_length_le w x.natAbs hw h2), ?_, ?_⟩
  · exact pad_all_digits w _ (nat_to_dec_all_digits x.natAbs)
  · rw [nat_val_pad, nat_val_nat_to_dec]

/-- For a zero-offset datetime the stream operator prints exactly the
right-nested RFC-3339 text. -/
theorem print_datetime_eq (y mo dd hh mi se mu : Int) :
    print_datetime ⟨y, mo, dd, hh, mi, se, mu, 0, 0⟩
      = rfc3339_text y mo dd hh mi se mu := by
  simp only [print_datetime, rfc3339_text, gt_iff_lt]
  rw [if_neg (show ¬(((0 : Int) ≠ 0) ∨ ((0 : Int) ≠ 0)) from by simp)]
  simp only [List.append_assoc, List.cons_append, List.nil_append]

/-- Every character of the printed zero-offset datetime is in the date
character class, so `find_end_of_date` reaches the end of the text. -/
theorem rfc3339_find_end (y mo dd hh mi se mu : Int)
    (hy : 0 ≤ y) (hmo : 0 ≤ mo) (hdd : 0 ≤ dd) (hhh : 0 ≤ hh) (hmi : 0 ≤ mi)
    (hse : 0 ≤ se) (hmu : 0 ≤ mu) :
    find_end_of_date (rfc3339_text y mo dd hh mi se mu)
      = (rfc3339_text y mo dd hh mi se mu).length := by
  have hseg : ∀ (x : Int) (w : Nat), 0 ≤ x → ∀ c ∈ pad w (int_to_dec x),
      is_date_char c = true := by
    intro x w hx c hc
    rw [int_to_dec_nonneg x hx] at hc
    exact is_date_char_of_digit c
      (pad_all_digits w _ (nat_to_dec_all_digits x.natAbs) c hc)
  have hall : ∀ c ∈ rfc3339_text y mo dd hh mi se mu, is_date_char c = true := by
    unfold rfc3339_text
    refine List.forall_mem_append.mpr ⟨hseg y 4 hy, List.forall_mem_cons.mpr ⟨rfl, ?_⟩⟩
    refine List.forall_mem_append.mpr ⟨hseg mo 2 hmo, List.forall_mem_cons.mpr ⟨rfl, ?_⟩⟩
    refine List.forall_mem_append.mpr ⟨hseg dd 2 hdd, List.forall_mem_cons.mpr ⟨rfl, ?_⟩⟩
    refine List.forall_mem_append.mpr ⟨hseg hh 2 hhh, List.forall_mem_cons.mpr ⟨rfl, ?_⟩⟩
    refine List.forall_mem_append.mpr ⟨hseg mi 2 hmi, List.forall_mem_cons.mpr ⟨rfl, ?_⟩⟩
    refine List.forall_mem_append.mpr ⟨hseg se 2 hse, ?_⟩
    refine List.forall_mem_append.mpr ⟨?_, ?_⟩
    · by_cases hc0 : 0 < mu
      · rw [if_pos hc0]
        exact List.forall_mem_cons.mpr ⟨rfl, hseg mu 6 hmu⟩
      · rw [if_neg hc0]
        intro c hc
        simp at hc
    · intro c hc
      rw [List.mem_singleton.mp hc]
      rfl
  unfold find_end_of_date
  rw [List.takeWhile_eq_self_iff.mpr hall]

/-- Parsing the printed zero-offset RFC-3339 text recovers the datetime
and consumes the whole text. -/
theorem parse_date_rfc3339 (y mo dd hh mi se mu : Int)
    (hy1 : 0 ≤ y) (hy2 : y ≤ 9999) (hmo1 : 0 ≤ mo) (hmo2 : mo ≤ 99)
    (hd1 : 0 ≤ dd) (hd2 : dd ≤ 99) (hh1 : 0 ≤ hh) (hh2 : hh ≤ 99)
    (hmi1 : 0 ≤ mi) (hmi2 : mi ≤ 99) (hs1 : 0 ≤ se) (hs2 : se ≤ 99)
    (hu1 : 0 ≤ mu) :
    (parse_date_t (rfc3339_text y mo dd hh mi se mu)).1
      = .ok (⟨y, mo, dd, hh, mi, se, mu, 0, 0⟩, []) := by
  obtain ⟨hYl, hYd, hYv⟩ := field_block y 4 hy1
    (by rw [show (10 : Nat) ^ 4 = 10000 from rfl]; omega) (by omega)
  obtain ⟨hMOl, hMOd, hMOv⟩ := field_block mo 2 hmo1
    (by rw [show (10 : Nat) ^ 2 = 100 from rfl]; omega) (by omega)
  obtain ⟨hDDl, hDDd, hDDv⟩ := field_block dd 2 hd1
    (by rw [show (10 : Nat) ^ 2 = 100 from rfl]; omega) (by omega)
  obtain ⟨hHHl, hHHd, hHHv⟩ := field_block hh 2 hh1
    (by rw [show (10 : Nat) ^ 2 = 100 from rfl]; omega) (by omega)
  obtain ⟨hMIl, hMId, hMIv⟩ := field_block mi 2 hmi1
    (by rw [show (10 : Nat) ^ 2 = 100 from rfl]; omega) (by omega)
  obtain ⟨hSEl, hSEd, hSEv⟩ := field_block se 2 hs1
    (by rw [show (10 : Nat) ^ 2 = 100 from rfl]; omega) (by omega)
  have hMUd : ∀ c ∈ pad 6 (int_to_dec mu), is_number c = true := by
    rw [int_to_dec_nonneg mu hu1]
    exact pad_all_digits 6 _ (nat_to_dec_all_digits mu.natAbs)
  have hYv2 : ((nat_val (pad 4 (int_to_dec y)) : Nat) : Int) = y := by
    rw [hYv]; exact Int.natAbs_of_nonneg hy1
  have hMOv2 : ((nat_val (pad 2 (int_to_dec mo)) : Nat) : Int) = mo := by
    rw [hMOv]; exact Int.natAbs_of_nonneg hmo1
  have hDDv2 : ((nat_val (pad 2 (int_to_dec dd)) : Nat) : Int) = dd := by
    rw [hDDv]; exact Int.natAbs_of_nonneg hd1
  have hHHv2 : ((nat_val (pad 2 (int_to_dec hh)) : Nat) : Int) = hh := by
    rw [hHHv]; exact Int.natAbs_of_nonneg hh1
  have hMIv2 : ((nat_val (pad 2 (int_to_dec mi)) : Nat) : Int) = mi := by
    rw [hMIv]; exact Int.natAbs_of_nonneg hmi1
  have hSEv2 : ((nat_val (pad 2 (int_to_dec se)) : Nat) : Int) = se := by
    rw [hSEv]; exact Int.natAbs_of_nonneg hs1
  have hfind := rfc3339_find_end y mo dd hh mi se mu hy1 hmo1 hd1 hh1 hmi1 hs1 hu1
  simp only [parse_date_t]
  rw [hfind, List.take_length, List.drop_length]
  simp only [rfc3339_text] at *
  have e1 := eat_digits_run (pad 4 (int_to_dec y))
    ('-' :: (pad 2 (int_to_dec mo) ++ '-' :: (pad 2 (int_to_dec dd)
      ++ 'T' :: (pad 2 (int_to_dec hh) ++ ':' :: (pad 2 (int_to_dec mi)
      ++ ':' :: (pad 2 (int_to_dec se)
      ++ ((if 0 < mu then '.' :: pad 6 (int_to_dec mu) else []) ++ ['Z'])))))))
    0 0 hYd
  rw [hYl] at e1
  refine tr_step _ _ _ _ e1 ?_
  refine tr_step _ _ _ _ rfl ?_
  have e3 := eat_digits_run (pad 2 (int_to_dec mo))
    ('-' :: (pad 2 (int_to_dec dd) ++ 'T' :: (pad 2 (int_to_dec hh)
      ++ ':' :: (pad 2 (int_to_dec mi) ++ ':' :: (pad 2 (int_to_dec se)
      ++ ((if 0 < mu then '.' :: pad 6 (int_to_dec mu) else []) ++ ['Z']))))))
    0 5 hMOd
  rw [hMOl] at e3
  refine tr_step _ _ _ _ e3 ?_
  refine tr_step _ _ _ _ rfl ?_
  have e5 := eat_digits_run (pad 2 (int_to_dec dd))
    ('T' :: (pad 2 (int_to_dec hh) ++ ':' :: (pad 2 (int_to_dec mi)
      ++ ':' :: (pad 2 (int_to_dec se)
      ++ ((if 0 < mu then '.' :: pad 6 (int_to_dec mu) else []) ++ ['Z'])))))
    0 8 hDDd
  rw [hDDl] at e5
  refine tr_step _ _ _ _ e5 ?_
  refine tr_step _ _ _ _ rfl ?_
  have e7 := eat_digits_run (pad 2 (int_to_dec hh))
    (':' :: (pad 2 (int_to_dec mi) ++ ':' :: (pad 2 (int_to_dec se)
      ++ ((if 0 < mu then '.' :: pad 6 (int_to_dec mu) else []) ++ ['Z']))))
    0 11 hHHd
  rw [hHHl] at e7
  refine tr_step _ _ _ _ e7 ?_
  refine tr_step _ _ _ _ rfl ?_
  have e9 := eat_digits_run (pad 2 (int_to_dec mi))
    (':' :: (pad 2 (int_to_dec se)
      ++ ((if 0 < mu then '.' :: pad 6 (int_to_dec mu) else []) ++ ['Z'])))
    0 14 hMId
  rw [hMIl] at e9
  refine tr_step _ _ _ _ e9 ?_
  refine tr_step _ _ _ _ rfl ?_
  have e11 := eat_digits_run (pad 2 (int_to_dec se))
    ((if 0 < mu then '.' :: pad 6 (int_to_dec mu) else []) ++ ['Z'])
    0 17 hSEd
  rw [hSEl] at e11
  refine tr_step _ _ _ _ e11 ?_
  by_cases hmu : (0 : Int) < mu
  · have hmuv : (pad 6 (int_to_dec mu)).foldl
        (fun a c => 10 * a + ((c.toNat : Int) - 48)) 0 = mu := by
      have h1 := foldl_int_eq_nat (pad 6 (int_to_dec mu)) hMUd 0
      rw [Nat.cast_zero] at h1
      rw [h1]
      show ((nat_val (pad 6 (int_to_dec mu)) : Nat) : Int) = mu
      rw [int_to_dec_nonneg mu hu1, nat_val_pad, nat_val_nat_to_dec]
      exact Int.natAbs_of_nonneg hu1
    rw [if_pos hmu]
    simp only [List.cons_append]
    rw [List.headD_cons, if_pos rfl]
    simp only [List.drop_succ_cons, List.drop_zero]
    have emic := eat_micros_run (pad 6 (int_to_dec mu)) ['Z'] 0 (17 + 2 + 1) hMUd
      (Or.inr (by decide))
    simp only [emic]
    refine Eq.trans (?_ : _ = Except.ok
      ((⟨((nat_val (pad 4 (int_to_dec y)) : Nat) : Int),
        ((nat_val (pad 2 (int_to_dec mo)) : Nat) : Int),
        ((nat_val (pad 2 (int_to_dec dd)) : Nat) : Int),
        ((nat_val (pad 2 (int_to_dec hh)) : Nat) : Int),
        ((nat_val (pad 2 (int_to_dec mi)) : Nat) : Int),
        ((nat_val (pad 2 (int_to_dec se)) : Nat) : Int),
        (pad 6 (int_to_dec mu)).foldl (fun a c => 10 * a + ((c.toNat : Int) - 48)) 0,
        0, 0⟩ : datetime), ([] : List Char))) ?_
    · rfl
    · rw [hYv2, hMOv2, hDDv2, hHHv2, hMIv2, hSEv2, hmuv]
  · have hmu0 : mu = 0 := by omega
    subst hmu0
    rw [if_neg hmu]
    simp only [List.nil_append]
    refine Eq.trans (?_ : _ = Except.ok
      ((⟨((nat_val (pad 4 (int_to_dec y)) : Nat) : Int),
        ((nat_val (pad 2 (int_to_dec mo)) : Nat) : Int),
        ((nat_val (pad 2 (int_to_dec dd)) : Nat) : Int),
        ((nat_val (pad 2 (int_to_dec hh)) : Nat) : Int),
        ((nat_val (pad 2 (int_to_dec mi)) : Nat) : Int),
        ((nat_val (pad 2 (int_to_dec se)) : Nat) : Int),
        0, 0, 0⟩ : datetime), ([] : List Char))) ?_
    · rfl
    · rw [hYv2, hMOv2, hDDv2, hHHv2, hMIv2, hSEv2]

/-- The printed zero-offset datetime contains a full stop exactly when the
microsecond field is positive. -/
theorem dot_mem_rfc3339 (y mo dd hh mi se mu : Int)
    (hy : 0 ≤ y) (hmo : 0 ≤ mo) (hdd : 0 ≤ dd) (hhh : 0 ≤ hh) (hmi : 0 ≤ mi)
    (hse : 0 ≤ se) :
    ('.' ∈ rfc3339_text y mo dd hh mi se mu) ↔ 0 < mu := by
  have hdig : ∀ (x : Int) (w : Nat), 0 ≤ x → ∀ c ∈ pad w (int_to_dec x),
      c ≠ '.' := by
    intro x w hx c hc hceq
    subst hceq
    rw [int_to_dec_nonneg x hx] at hc
    exact absurd (pad_all_digits w _ (nat_to_dec_all_digits x.natAbs) _ hc)
      (by decide)
  by_cases hmu : 0 < mu
  · refine ⟨fun _ => hmu, fun _ => ?_⟩
    simp [rfc3339_text, hmu]
  · constructor
    · intro h
      have hall : ∀ c ∈ rfc3339_text y mo dd hh mi se mu, c ≠ '.' := by
        unfold rfc3339_text
        rw [if_neg hmu]
        refine List.forall_mem_append.mpr
          ⟨hdig y 4 hy, List.forall_mem_cons.mpr ⟨by decide, ?_⟩⟩
        refine List.forall_mem_append.mpr
          ⟨hdig mo 2 hmo, List.forall_mem_cons.mpr ⟨by decide, ?_⟩⟩
        refine List.forall_mem_append.mpr
          ⟨hdig dd 2 hdd, List.forall_mem_cons.mpr ⟨by decide, ?_⟩⟩
        refine List.forall_mem_append.mpr
          ⟨hdig hh 2 hhh, List.forall_mem_cons.mpr ⟨by decide, ?_⟩⟩
        refine List.forall_mem_append.mpr
          ⟨hdig mi 2 hmi, List.forall_mem_cons.mpr ⟨by decide, ?_⟩⟩
        refine List.forall_mem_append.mpr ⟨hdig se 2 hse, ?_⟩
        rw [List.nil_append]
        intro c hc
        rw [List.mem_singleton.mp hc]
        decide
      exact absurd rfl (hall '.' h)
    · intro h
      exact absurd h hmu

/-- `dropWhile` is the identity when no element satisfies the predicate
(only the head matters, but the pointwise form is what call sites have). -/
theorem dropWhile_all_false (p : Char → Bool) (a : List Char)
    (h : ∀ c ∈ a, p c = false) : a.dropWhile p = a := by
  cases a with
  | nil => rfl
  | cons c r =>
      rw [List.dropWhile_cons, if_neg]
      simp [h c (List.mem_cons_self c r)]

/-- A key that differs from every key of the table is not contained. -/
theorem contains_eq_false (t : Table) (k : List Char)
    (h : ∀ p ∈ t, p.1 ≠ k) : contains t k = false := by
  induction t with
  | nil => rfl
  | cons p rest ih =>
      obtain ⟨k', v'⟩ := p
      have hk : k' ≠ k := h (k', v') (List.mem_cons_self _ _)
      simp only [contains, get, if_neg hk]
      exact ih (fun q hq => h q (List.mem_cons_of_mem _ hq))

/-- `getline` on a text that starts with a newline-free line: the line is
produced and scanning restarts after the newline. -/
theorem getlines_go_append (r : List Char) :
    ∀ (l : List Char), (∀ c ∈ l, c ≠ '\n') → ∀ acc,
      getlines_go acc (l ++ '\n' :: r)
        = (acc.reverse ++ l) :: (if r.isEmpty then [] else getlines_go [] r) := by
  intro l
  induction l with
  | nil =>
      intro _ acc
      show getlines_go acc ('\n' :: r) = _
      simp only [getlines_go, if_pos rfl]
      cases r with
      | nil => simp
      | cons a b => simp
  | cons c l2 ih =>
      intro hnl acc
      have hc : c ≠ '\n' := hnl c (List.mem_cons_self c l2)
      show getlines_go acc (c :: (l2 ++ '\n' :: r)) = _
      simp only [getlines_go, if_neg hc]
      rw [ih (fun d hd => hnl d (List.mem_cons_of_mem c hd)) (c :: acc)]
      simp

/-- The decimal rendering of an integer is untouched by
`consume_whitespace`. -/
theorem cw_int (n : Int) : consume_whitespace (int_to_dec n) = int_to_dec n := by
  by_cases h : n < 0
  · rw [show int_to_dec n = '-' :: nat_to_dec n.natAbs from by
      simp [int_to_dec, if_pos h]]
    rfl
  · obtain ⟨c, r, hcr⟩ := List.exists_cons_of_ne_nil (nat_to_dec_ne_nil n.natAbs)
    have hcd : is_number c = true :=
      nat_to_dec_all_digits n.natAbs c (by rw [hcr]; exact List.mem_cons_self c r)
    rw [int_to_dec_nonneg n (by omega), hcr]
    simp [consume_whitespace, List.dropWhile_cons,
      digit_beq_false c ' ' hcd (by decide), digit_beq_false c '\t' hcd (by decide)]

/-- The printed boolean is untouched by `consume_whitespace`. -/
theorem cw_bool (b : Bool) :
    consume_whitespace (print_node (.bool b)) = print_node (.bool b) := by
  cases b <;> rfl

/-- The decimal rendering of an integer contains no newline. -/
theorem int_to_dec_no_nl (n : Int) : ∀ c ∈ int_to_dec n, c ≠ '\n' := by
  intro c hc hceq
  subst hceq
  by_cases h : n < 0
  · rw [show int_to_dec n = '-' :: nat_to_dec n.natAbs from by
      simp [int_to_dec, if_pos h]] at hc
    rcases List.mem_cons.mp hc with h1 | h1
    · exact absurd h1 (by decide)
    · exact absurd (nat_to_dec_all_digits n.natAbs _ h1) (by decide)
  · rw [int_to_dec_nonneg n (by omega)] at hc
    exact absurd (nat_to_dec_all_digits n.natAbs _ hc) (by decide)

/-- The printed boolean contains no newline. -/
theorem bool_no_nl (b : Bool) : ∀ c ∈ print_node (.bool b), c ≠ '\n' := by
  cases b <;> decide

/-- `parse_value` on the decimal rendering of an `int64_t`-range integer. -/
theorem parse_value_int (m : Nat) (n : Int) (lines : List (List Char))
    (hlo : -(2 ^ 63) ≤ n) (hhi : n ≤ 2 ^ 63 - 1) :
    parse_value (m + 1) (int_to_dec n) lines = .ok (.int n, [], lines) := by
  simp only [parse_value, dvt_int_to_dec n, parse_number_int n hlo hhi, Except.map]

/-- `parse_value` on a printed boolean. -/
theorem parse_value_bool (m : Nat) (b : Bool) (lines : List (List Char)) :
    parse_value (m + 1) (print_node (.bool b)) lines
      = .ok (.bool b, [], lines) := by
  cases b <;> rfl

/-- `parse_bare_key` on a clean key followed by the single space the
printer puts before `=`: the space is trimmed and the key accepted. -/
theorem parse_bare_key_sp (k : List Char) (hk : k ≠ [])
    (hgood : ∀ d ∈ k, d ∉ ([' ', '\t', '#', '[', ']', '=', '\n', '"'] : List Char)) :
    parse_bare_key (k ++ [' ']) = .ok k := by
  have hgood' : ∀ d ∈ k, d ≠ ' ' ∧ d ≠ '\t' ∧ d ≠ '#' ∧ d ≠ '[' ∧ d ≠ ']' := by
    intro d hd
    have h := hgood d hd
    simp only [List.mem_cons, List.mem_singleton] at h
    push_neg at h
    exact ⟨h.1, h.2.1, h.2.2.1, h.2.2.2.1, h.2.2.2.2.1⟩
  have hrev : (k ++ [' ']).reverse = ' ' :: k.reverse := by simp
  have hdrop : (' ' :: k.reverse).dropWhile (fun c => c == ' ' || c == '\t')
      = k.reverse := by
    rw [List.dropWhile_cons, if_pos (by decide)]
    refine dropWhile_all_false _ _ ?_
    intro c hc
    have h := hgood' c (List.mem_reverse.mp hc)
    simp [beq_eq_false_iff_ne.mpr h.1, beq_eq_false_iff_ne.mpr h.2.1]
  have hany1 : k.any (fun c => c == '#') = false := by
    rw [List.any_eq_false]
    intro c hc
    simp [beq_eq_false_iff_ne.mpr (hgood' c hc).2.2.1]
  have hany2 : k.any (fun c => c == ' ' || c == '\t') = false := by
    rw [List.any_eq_false]
    intro c hc
    simp [beq_eq_false_iff_ne.mpr (hgood' c hc).1,
      beq_eq_false_iff_ne.mpr (hgood' c hc).2.1]
  have hany3 : k.any (fun c => c == '[' || c == ']') = false := by
    rw [List.any_eq_false]
    intro c hc
    simp [beq_eq_false_iff_ne.mpr (hgood' c hc).2.2.2.1,
      beq_eq_false_iff_ne.mpr (hgood' c hc).2.2.2.2]
  have hcond : ¬(k.isEmpty = true ∧ ¬(k ++ [' ']).isEmpty = true) :=
    fun h => hk (List.isEmpty_iff.mp h.1)
  simp only [parse_bare_key, hrev, hdrop, List.reverse_reverse, if_neg hcond]
  rw [hany1, hany2, hany3]
  rfl

/-- `parse_key` on the printed line `key ++ " = " ++ value`: the bare key
is recovered (trailing space trimmed) and the rest starts at `=`. -/
theorem parse_key_line (k vtext : List Char) (hk : k ≠ [])
    (hgood : ∀ d ∈ k, d ∉ ([' ', '\t', '#', '[', ']', '=', '\n', '"'] : List Char)) :
    parse_key (k ++ chars " = " ++ vtext) (fun c => c == '=')
      = .ok (k, '=' :: ' ' :: vtext) := by
  obtain ⟨c, k', hck⟩ := List.exists_cons_of_ne_nil hk
  have hc := hgood c (by rw [hck]; exact List.mem_cons_self c k')
  simp only [List.mem_cons, List.mem_singleton] at hc
  push_neg at hc
  have hassoc : k ++ chars " = " ++ vtext = (k ++ [' ']) ++ ('=' :: ' ' :: vtext) := by
    show k ++ [' ', '=', ' '] ++ vtext = _
    simp
  have hcw : consume_whitespace (k ++ chars " = " ++ vtext)
      = k ++ chars " = " ++ vtext := by
    rw [hck]
    show List.dropWhile _ (c :: (k' ++ chars " = " ++ vtext)) = _
    rw [List.dropWhile_cons,
      if_neg (by simp [beq_eq_false_iff_ne.mpr hc.1, beq_eq_false_iff_ne.mpr hc.2.1])]
    rfl
  have hq : ((k ++ chars " = " ++ vtext).headD nullch == '"') = false := by
    rw [hck]
    show ((c :: (k' ++ chars " = " ++ vtext)).headD nullch == '"') = false
    rw [List.headD_cons]
    exact beq_eq_false_iff_ne.mpr hc.2.2.2.2.2.2.2.1
  have hallp : ∀ d ∈ k ++ [' '], (fun c => !(c == '=')) d = true := by
    intro d hd
    rcases List.mem_append.mp hd with h1 | h1
    · have h := hgood d h1
      simp only [List.mem_cons, List.mem_singleton] at h
      push_neg at h
      simp [beq_eq_false_iff_ne.mpr h.2.2.2.2.2.1]
    · rw [List.mem_singleton.mp h1]
      decide
  obtain ⟨htake, hdrop⟩ :=
    takeWhile_append_of_all (k ++ [' ']) ('=' :: ' ' :: vtext) hallp
  simp only [parse_key, hcw, hq, Bool.false_eq_true, if_false]
  rw [hassoc, htake, hdrop]
  rw [show ('=' :: ' ' :: vtext).takeWhile (fun c => !(c == '=')) = [] from rfl]
  rw [show ('=' :: ' ' :: vtext).dropWhile (fun c => !(c == '=')) = '=' :: ' ' :: vtext
    from rfl]
  rw [List.append_nil, parse_bare_key_sp k hk hgood]

/-- `parse_key_value` on the printed line: the key is fresh, `=` is found,
the value parser consumes the whole value text, and the pair is
inserted. -/
theorem parse_key_value_line (fv : Nat) (curr : Table) (k vtext : List Char)
    (v : Node) (lines : List (List Char))
    (hk : k ≠ [])
    (hgood : ∀ d ∈ k, d ∉ ([' ', '\t', '#', '[', ']', '=', '\n', '"'] : List Char))
    (hcont : contains curr k = false)
    (hcw : consume_whitespace vtext = vtext)
    (hv : parse_value fv vtext lines = .ok (v, [], lines)) :
    parse_key_value (fv + 1) curr (k ++ chars " = " ++ vtext) lines
      = .ok (insert curr k v, [], lines) := by
  have hdrop1 : consume_whitespace (('=' :: ' ' :: vtext).drop 1) = vtext := by
    show List.dropWhile _ (' ' :: vtext) = vtext
    rw [List.dropWhile_cons, if_pos (by decide)]
    exact hcw
  simp only [parse_key_value, parse_key_line k vtext hk hgood, hcont,
    Bool.false_eq_true, if_false, List.headD_cons]
  rw [if_neg (by simp)]
  rw [hdrop1, hv]
  rfl

/-- One iteration of the `parser::parse` loop on a printed key/value
line: the table grows by the inserted pair and the loop continues. -/
theorem parse_lines_step (f vf : Nat) (root : Table)
    (k vtext : List Char) (v : Node) (rest : List (List Char))
    (hk : k ≠ [])
    (hgood : ∀ d ∈ k, d ∉ ([' ', '\t', '#', '[', ']', '=', '\n', '"'] : List Char))
    (hcont : contains root k = false)
    (hcw : consume_whitespace vtext = vtext)
    (hv : parse_value vf vtext rest = .ok (v, [], rest)) :
    parse_lines (f + 1) (vf + 1) ((k ++ chars " = " ++ vtext) :: rest) root []
      = parse_lines f (vf + 1) rest (insert root k v) [] := by
  obtain ⟨c, k', hck⟩ := List.exists_cons_of_ne_nil hk
  have hc := hgood c (by rw [hck]; exact List.mem_cons_self c k')
  simp only [List.mem_cons, List.mem_singleton] at hc
  push_neg at hc
  have hcwl : consume_whitespace (k ++ chars " = " ++ vtext)
      = k ++ chars " = " ++ vtext := by
    rw [hck]
    show List.dropWhile _ (c :: (k' ++ chars " = " ++ vtext)) = _
    rw [List.dropWhile_cons,
      if_neg (by simp [beq_eq_false_iff_ne.mpr hc.1, beq_eq_false_iff_ne.mpr hc.2.1])]
    rfl
  have hne : (k ++ chars " = " ++ vtext).isEmpty = false := by
    rw [hck]
    rfl
  have hhead : (k ++ chars " = " ++ vtext).headD nullch = c := by
    rw [hck]
    rfl
  simp only [parse_lines, hcwl, hne, hhead, Bool.false_or,
    beq_eq_false_iff_ne.mpr hc.2.2.1, beq_eq_false_iff_ne.mpr hc.2.2.2.1,
    Bool.false_eq_true, if_false, get_at, Option.getD_some]
  rw [parse_key_value_line vf root k vtext v rest hk hgood hcont hcw hv]
  rfl

/-- `table::print` at depth 0 on a leaf-valued (non-table, non-table-array)
first entry: the line `key = value` followed by a newline and the rest. -/
theorem print_flat_shape (k : List Char) (v : Node) (rest : Table)
    (hv : (∃ n, v = Node.int n) ∨ (∃ b, v = Node.bool b)
      ∨ (∃ dt, v = Node.date dt) ∨ (∃ xs, v = Node.arr xs)) :
    print_table_body 0 ((k, v) :: rest)
      = (k ++ chars " = " ++ print_node v) ++ '\n' :: print_table_body 0 rest := by
  rcases hv with ⟨n, hn⟩ | ⟨b, hb⟩ | ⟨dt, hd⟩ | ⟨xs, hx⟩ <;> subst_vars <;>
    simp [print_table_body, tabs, List.append_assoc]

/-- `getline` recovers exactly the printed lines of a flat int/bool
table. -/
theorem getlines_print_flat :
    ∀ (t : Table),
    (∀ p ∈ t, p.1 ≠ [] ∧ ∀ d ∈ p.1,
      d ∉ ([' ', '\t', '#', '[', ']', '=', '\n', '"'] : List Char)) →
    (∀ p ∈ t, (∃ n, p.2 = Node.int n) ∨ (∃ b, p.2 = Node.bool b)
      ∨ (∃ dt, p.2 = Node.date dt) ∨ (∃ xs, p.2 = Node.arr xs)) →
    (∀ p ∈ t, ∀ c ∈ print_node p.2, c ≠ '\n') →
    getlines (print_table_body 0 t)
      = t.map (fun p => p.1 ++ chars " = " ++ print_node p.2) := by
  intro t
  induction t with
  | nil => intro _ _ _; rfl
  | cons p rest ih =>
      intro hkeys hscal hnl
      obtain ⟨k, v⟩ := p
      have hk : k ≠ [] := (hkeys (k, v) (List.mem_cons_self _ _)).1
      obtain ⟨c, k', hck⟩ := List.exists_cons_of_ne_nil hk
      have hshape := print_flat_shape k v rest (hscal (k, v) (List.mem_cons_self _ _))
      have hlinenl : ∀ d ∈ k ++ chars " = " ++ print_node v, d ≠ '\n' := by
        intro d hd
        rcases List.mem_append.mp hd with h1 | h1
        · rcases List.mem_append.mp h1 with h2 | h2
          · have h := (hkeys (k, v) (List.mem_cons_self _ _)).2 d h2
            simp only [List.mem_cons, List.mem_singleton] at h
            push_neg at h
            exact h.2.2.2.2.2.2.1
          · intro hdeq
            subst hdeq
            exact absurd h2 (by decide)
        · exact hnl (k, v) (List.mem_cons_self _ _) d h1
      have hcons : (k ++ chars " = " ++ print_node v) ++ '\n' :: print_table_body 0 rest
          = c :: (k' ++ chars " = " ++ print_node v ++ '\n' :: print_table_body 0 rest) := by
        rw [hck]
        simp [List.append_assoc]
      rw [hshape, hcons]
      show getlines_go [] _ = _
      rw [← hcons]
      rw [getlines_go_append (print_table_body 0 rest)
        (k ++ chars " = " ++ print_node v) hlinenl []]
      rw [List.reverse_nil, List.nil_append, List.map_cons]
      cases rest with
      | nil => simp [print_table_body]
      | cons q rest2 =>
          obtain ⟨kq, vq⟩ := q
          have hq : kq ≠ [] :=
            (hkeys (kq, vq) (List.mem_cons_of_mem _ (List.mem_cons_self _ _))).1
          obtain ⟨c2, q', hcq⟩ := List.exists_cons_of_ne_nil hq
          have hshape2 := print_flat_shape kq vq rest2
            (hscal (kq, vq) (List.mem_cons_of_mem _ (List.mem_cons_self _ _)))
          have hpcons : print_table_body 0 ((kq, vq) :: rest2)
              = c2 :: (q' ++ chars " = " ++ print_node vq
                  ++ '\n' :: print_table_body 0 rest2) := by
            rw [hshape2, hcq]
            simp [List.append_assoc]
          rw [hpcons]
          simp only [List.isEmpty_cons, Bool.false_eq_true, if_false]
          have hgo : getlines_go [] (c2 :: (q' ++ chars " = " ++ print_node vq
              ++ '\n' :: print_table_body 0 rest2))
              = getlines (print_table_body 0 ((kq, vq) :: rest2)) := by
            rw [hpcons]
            rfl
          rw [hgo, ih (fun p hp => hkeys p (List.mem_cons_of_mem _ hp))
            (fun p hp => hscal p (List.mem_cons_of_mem _ hp))
            (fun p hp => hnl p (List.mem_cons_of_mem _ hp))]

/-- The `parser::parse` loop over the printed lines of a flat table:
whenever the value parser consumes each printed value exactly, the loop
accumulates exactly the table's entries. -/
theorem parse_lines_flat (vf : Nat) :
    ∀ (t acc : Table) (f : Nat),
    t.length ≤ f →
    (∀ p ∈ t, p.1 ≠ [] ∧ ∀ d ∈ p.1,
      d ∉ ([' ', '\t', '#', '[', ']', '=', '\n', '"'] : List Char)) →
    (∀ p ∈ t, consume_whitespace (print_node p.2) = print_node p.2) →
    (∀ p ∈ t, ∀ ls, parse_value (vf + 1) (print_node p.2) ls = .ok (p.2, [], ls)) →
    ((acc ++ t).map Prod.fst).Nodup →
    parse_lines f (vf + 2)
        (t.map (fun p => p.1 ++ chars " = " ++ print_node p.2)) acc []
      = .ok (acc ++ t) := by
  intro t
  induction t with
  | nil =>
      intro acc f _ _ _ _ _
      rw [List.append_nil]
      cases f <;> rfl
  | cons p t2 ih =>
      intro acc f hf hkeys hcwv hvp hnodup
      obtain ⟨k, v⟩ := p
      cases f with
      | zero => simp at hf
      | succ f2 =>
          have hk : k ≠ [] := (hkeys (k, v) (List.mem_cons_self _ _)).1
          have hgood := (hkeys (k, v) (List.mem_cons_self _ _)).2
          have hcont : contains acc k = false := by
            apply contains_eq_false
            intro q hq hqe
            rw [List.map_append, List.nodup_append] at hnodup
            refine hnodup.2.2 (List.mem_map_of_mem Prod.fst hq) ?_
            rw [hqe, List.map_cons]
            exact List.mem_cons_self _ _
          have hlen : t2.length ≤ f2 := by
            simp only [List.length_cons] at hf
            omega
          have hkeys2 := fun q hq => hkeys q (List.mem_cons_of_mem _ hq)
          have hcwv2 := fun q hq => hcwv q (List.mem_cons_of_mem _ hq)
          have hvp2 := fun q hq => hvp q (List.mem_cons_of_mem _ hq)
          have hnodup2 : ((acc ++ [(k, v)] ++ t2).map Prod.fst).Nodup := by
            simpa [List.append_assoc] using hnodup
          rw [List.map_cons]
          rw [parse_lines_step f2 (vf + 1) acc k (print_node v) v _ hk hgood hcont
            (hcwv (k, v) (List.mem_cons_self _ _))
            (hvp (k, v) (List.mem_cons_self _ _) _)]
          rw [insert_of_not_contains acc k v hcont,
            show vf + 1 + 1 = vf + 2 from rfl]
          rw [ih (acc ++ [(k, v)]) f2 hlen hkeys2 hcwv2 hvp2 hnodup2]
          simp

/-- The decimal rendering of an integer is never empty. -/
theorem int_to_dec_ne_nil (n : Int) : int_to_dec n ≠ [] := by
  by_cases h : n < 0
  · simp [int_to_dec, if_pos h]
  · rw [int_to_dec_nonneg n (by omega)]
    exact nat_to_dec_ne_nil n.natAbs

/-- The decimal rendering of an integer starts with a minus sign or a
digit. -/
theorem int_to_dec_head (n : Int) :
    ∃ c r, int_to_dec n = c :: r ∧ (c = '-' ∨ is_number c = true) := by
  by_cases h : n < 0
  · exact ⟨'-', nat_to_dec n.natAbs, by simp [int_to_dec, if_pos h], Or.inl rfl⟩
  · obtain ⟨c, r, hcr⟩ := List.exists_cons_of_ne_nil (nat_to_dec_ne_nil n.natAbs)
    refine ⟨c, r, ?_, Or.inr ?_⟩
    · rw [int_to_dec_nonneg n (by omega), hcr]
    · exact nat_to_dec_all_digits n.natAbs c (by rw [hcr]; exact List.mem_cons_self c r)

/-- A character that is a minus sign or a digit differs from any
character outside that class. -/
theorem head_beq_false (c d : Char) (h : c = '-' ∨ is_number c = true)
    (h1 : ('-' == d) = false) (h2 : d.toNat < 48 ∨ 57 < d.toNat) :
    (c == d) = false := by
  rcases h with h | h
  · rw [h]; exact h1
  · exact digit_beq_false c d h h2

/-- Every character of the decimal rendering is a minus sign or a
digit. -/
theorem int_to_dec_chars (n : Int) :
    ∀ c ∈ int_to_dec n, c = '-' ∨ is_number c = true := by
  intro c hc
  by_cases h : n < 0
  · rw [show int_to_dec n = '-' :: nat_to_dec n.natAbs from by
      simp [int_to_dec, if_pos h]] at hc
    rcases List.mem_cons.mp hc with h1 | h1
    · exact Or.inl h1
    · exact Or.inr (nat_to_dec_all_digits n.natAbs _ h1)
  · rw [int_to_dec_nonneg n (by omega)] at hc
    exact Or.inr (nat_to_dec_all_digits n.natAbs _ hc)

/-- Every character of the decimal rendering is in the date character
class (digits and the minus sign are both date characters). -/
theorem int_date_chars (n : Int) :
    ∀ c ∈ int_to_dec n, is_date_char c = true := by
  intro c hc
  rcases int_to_dec_chars n c hc with h | h
  · rw [h]; rfl
  · exact is_date_char_of_digit c h

/-- The digit-run eater on a non-empty digit list followed by a text that
starts with a comma or a space: the digits are consumed, the tail is
untouched. -/
theorem eat_numbers_go_digits_tail (t : List Char)
    (ht : t.headD nullch = ',' ∨ t.headD nullch = ' ') :
    ∀ d, d ≠ [] → (∀ c ∈ d, is_number c = true) →
    eat_numbers_go (d ++ t) = .ok (d, t) := by
  have hthead : ∀ c2 r2, t = c2 :: r2 → is_number c2 = false ∧ ¬ (c2 = '_') := by
    intro c2 r2 h0
    subst h0
    simp only [List.headD_cons] at ht
    rcases ht with h | h <;> subst h <;> exact ⟨by decide, by decide⟩
  intro d
  induction d with
  | nil => intro h0 _; exact absurd rfl h0
  | cons c rest ih =>
      intro _ h
      have hc : is_number c = true := h c (List.mem_cons_self c rest)
      have hrest : ∀ x ∈ rest, is_number x = true :=
        fun x hx => h x (List.mem_cons_of_mem c hx)
      cases rest with
      | nil =>
          cases t with
          | nil => simp [eat_numbers_go, hc]
          | cons c2 r2 =>
              obtain ⟨hnum2, hne2⟩ := hthead c2 r2 rfl
              show eat_numbers_go (c :: c2 :: r2) = _
              have h2 : eat_numbers_go (c2 :: r2) = .ok ([], c2 :: r2) := by
                rw [eat_numbers_go.eq_def]
                simp [hnum2]
              simp [eat_numbers_go, hc, hne2, h2, Except.map]
      | cons c2 r2 =>
          have hc2 : is_number c2 = true := hrest c2 (List.mem_cons_self c2 r2)
          have hne : ¬ (c2 = '_') := by
            intro h0
            have := (is_number_facts c2 hc2).2.2.2.1
            rw [h0] at this
            simp at this
          have ih2 := ih (by simp) hrest
          simp only [List.cons_append] at ih2
          show eat_numbers_go (c :: c2 :: (r2 ++ t)) = _
          simp [eat_numbers_go, hc, hne, ih2, Except.map]

/-- `parse_number` on the decimal rendering of an `int64_t`-range integer
followed by a comma- or space-headed tail: the integer is produced and
the tail returned untouched. -/
theorem parse_number_int_tail (n : Int) (t : List Char)
    (hlo : -(2 ^ 63) ≤ n) (hhi : n ≤ 2 ^ 63 - 1)
    (ht : t.headD nullch = ',' ∨ t.headD nullch = ' ') :
    parse_number (int_to_dec n ++ t) = .ok (Node.int n, t) := by
  have hdigits := nat_to_dec_all_digits n.natAbs
  have hnn := nat_to_dec_ne_nil n.natAbs
  have heat : eat_numbers (nat_to_dec n.natAbs ++ t) = .ok (nat_to_dec n.natAbs, t) := by
    simp [eat_numbers, eat_numbers_go_digits_tail t ht _ hnn hdigits, hnn]
  have hfilter : (nat_to_dec n.natAbs).filter (fun c => !(c == '_')) = nat_to_dec n.natAbs := by
    rw [List.filter_eq_self]
    intro c hcm
    simp [digit_beq_false c '_' (hdigits c hcm) (by decide)]
  have hc1 : ((t.headD nullch == '.') || (t.headD nullch == 'e')
      || (t.headD nullch == 'E')) = false := by
    rcases ht with h | h <;> rw [h] <;> decide
  by_cases hneg : n < 0
  · have hshape : int_to_dec n = '-' :: nat_to_dec n.natAbs := by
      simp [int_to_dec, if_pos hneg]
    have hval : -((nat_val (nat_to_dec n.natAbs) : Nat) : Int) = n := by
      rw [nat_val_nat_to_dec]
      omega
    have hfilter2 : List.filter (fun c => !(c == '_')) ('-' :: nat_to_dec n.natAbs)
        = '-' :: nat_to_dec n.natAbs := by
      rw [List.filter_cons]
      simp only [show (!('-' == '_')) = true from rfl, if_true, hfilter]
    rw [hshape]
    simp only [List.cons_append]
    simp only [parse_number, eat_sign, heat, hc1, Bool.false_eq_true, if_false,
      parse_int]
    rw [show (['-'] ++ nat_to_dec n.natAbs : List Char) = '-' :: nat_to_dec n.natAbs
      from rfl, hfilter2, stoll_neg_digits _ hnn hdigits, hval,
      if_neg (show ¬ (n < -(2 ^ 63)) from by omega)]
    rfl
  · have hshape := int_to_dec_nonneg n (by omega)
    obtain ⟨c, r, hcr⟩ := List.exists_cons_of_ne_nil hnn
    have hcd : is_number c = true := hdigits c (by rw [hcr]; exact List.mem_cons_self c r)
    have hsign : eat_sign (nat_to_dec n.natAbs ++ t) = ([], nat_to_dec n.natAbs ++ t) := by
      apply eat_sign_no
      · rw [hcr, List.cons_append, List.headD_cons]
        exact digit_ne c '-' hcd (by decide)
      · rw [hcr, List.cons_append, List.headD_cons]
        exact digit_ne c '+' hcd (by decide)
    have hval : ((nat_val (nat_to_dec n.natAbs) : Nat) : Int) = n := by
      rw [nat_val_nat_to_dec]
      omega
    rw [hshape]
    simp only [parse_number, hsign, heat, hc1, Bool.false_eq_true, if_false,
      parse_int, List.nil_append, hfilter]
    rw [stoll_digits _ hnn hdigits, hval,
      if_neg (show ¬ ((2 ^ 63 - 1 : Int) < n) from by omega)]
    rfl

/-- `is_date` on a decimal integer followed by a tail whose head is
outside the date character class: the scan stops where it stops for the
bare integer, which is not a date. -/
theorem is_date_int_tail (n : Int) (t : List Char)
    (ht : is_date_char (t.headD nullch) = false) :
    is_date (int_to_dec n ++ t) = false := by
  have hall : ∀ c ∈ int_to_dec n, is_date_char c = true := int_date_chars n
  have htw : (int_to_dec n ++ t).takeWhile is_date_char
      = (int_to_dec n).takeWhile is_date_char := by
    rw [(takeWhile_append_of_all (int_to_dec n) t hall).1,
      List.takeWhile_eq_self_iff.mpr hall]
    cases t with
    | nil => simp
    | cons c2 r2 =>
        simp only [List.headD_cons] at ht
        rw [List.takeWhile_cons, if_neg (by simp [ht])]
        simp
  have h2 : is_date (int_to_dec n ++ t) = is_date (int_to_dec n) := by
    simp only [is_date, htw]
  rw [h2, is_date_int_to_dec]

/-- `determine_value_type` on a decimal integer followed by a tail whose
head is outside the date character class is INT. -/
theorem dvt_int_tail (n : Int) (t : List Char)
    (ht : is_date_char (t.headD nullch) = false) :
    determine_value_type (int_to_dec n ++ t) = .ok .INT := by
  have hdigits := nat_to_dec_all_digits n.natAbs
  have hdate := is_date_int_tail n t ht
  have hdot : (t.headD nullch == '.') = false := by
    cases hb : t.headD nullch == '.' with
    | false => rfl
    | true =>
        rw [eq_of_beq hb] at ht
        exact absurd ht (by decide)
  have hdropt : t.dropWhile is_number = t := by
    cases t with
    | nil => rfl
    | cons c2 r2 =>
        simp only [List.headD_cons] at ht
        have hc2 : is_number c2 = false := by
          cases hnb : is_number c2 with
          | false => rfl
          | true =>
              rw [is_date_char_of_digit c2 hnb] at ht
              exact absurd ht (by decide)
        rw [List.dropWhile_cons, if_neg (by simp [hc2])]
  by_cases hneg : n < 0
  · have hshape : int_to_dec n = '-' :: nat_to_dec n.natAbs := by
      simp [int_to_dec, if_pos hneg]
    rw [hshape] at hdate ⊢
    simp only [List.cons_append] at hdate ⊢
    simp only [determine_value_type, List.headD_cons,
      show (('-' == '"') || ('-' == '\'')) = false from rfl,
      Bool.false_eq_true, if_false, hdate,
      show (is_number '-' || ('-' == '-') || ('-' == '+')) = true from rfl, if_true]
    simp only [determine_number_type, List.headD_cons,
      show (('-' == '-') || ('-' == '+')) = true from rfl, if_true,
      List.drop_one, List.tail_cons,
      (takeWhile_append_of_all (nat_to_dec n.natAbs) t hdigits).2, hdropt,
      hdot, Bool.false_eq_true, if_false]
  · have hshape := int_to_dec_nonneg n (by omega)
    obtain ⟨c, r, hcr⟩ := List.exists_cons_of_ne_nil (nat_to_dec_ne_nil n.natAbs)
    have hcd : is_number c = true := hdigits c (by rw [hcr]; exact List.mem_cons_self c r)
    rw [hshape] at hdate ⊢
    rw [hcr] at hdate ⊢
    simp only [List.cons_append] at hdate ⊢
    simp only [determine_value_type, List.headD_cons,
      digit_beq_false c '"' hcd (by decide), digit_beq_false c '\'' hcd (by decide),
      Bool.or_self, Bool.false_eq_true, if_false, hdate, hcd, Bool.true_or, if_true]
    simp only [determine_number_type, List.headD_cons,
      digit_beq_false c '-' hcd (by decide), digit_beq_false c '+' hcd (by decide),
      Bool.or_self, Bool.false_eq_true, if_false]
    rw [show c :: (r ++ t) = (c :: r) ++ t from rfl,
      (takeWhile_append_of_all (c :: r) t (by rw [← hcr]; exact hdigits)).2, hdropt,
      hdot]
    rfl

/-- `parse_value` on a decimal integer followed by a comma- or
space-headed tail. -/
theorem parse_value_int_tail (q : Nat) (n : Int) (t : List Char)
    (ls : List (List Char))
    (hlo : -(2 ^ 63) ≤ n) (hhi : n ≤ 2 ^ 63 - 1)
    (ht : t.headD nullch = ',' ∨ t.headD nullch = ' ') :
    parse_value (q + 1) (int_to_dec n ++ t) ls = .ok (.int n, t, ls) := by
  have hdc : is_date_char (t.headD nullch) = false := by
    rcases ht with h | h <;> rw [h] <;> decide
  simp only [parse_value, dvt_int_tail n t hdc,
    parse_number_int_tail n t hlo hhi ht, Except.map]

/-- `skip_whitespace_and_comments` is the identity on a whitespace-stable
non-empty text that is not a comment. -/
theorem skip_ws_nows (s : List Char) (ls : List (List Char))
    (hcw : consume_whitespace s = s) (hne : s.isEmpty = false)
    (hh : (s.headD nullch == '#') = false) :
    skip_ws_comments s ls = .ok (s, ls) := by
  simp only [skip_ws_comments, hcw, hne, hh, Bool.or_self, Bool.false_eq_true,
    if_false]

/-- `skip_whitespace_and_comments` on a single leading space before a
whitespace-stable non-empty non-comment text. -/
theorem skip_ws_sp (s : List Char) (ls : List (List Char))
    (hcw : consume_whitespace s = s) (hne : s.isEmpty = false)
    (hh : (s.headD nullch == '#') = false) :
    skip_ws_comments (' ' :: s) ls = .ok (s, ls) := by
  have h1 : consume_whitespace (' ' :: s) = s := by
    show List.dropWhile _ (' ' :: s) = s
    rw [List.dropWhile_cons, if_pos (by decide)]
    exact hcw
  simp only [skip_ws_comments, h1, hne, hh, Bool.or_self, Bool.false_eq_true,
    if_false]

/-- The element text of a non-empty printed integer array starts with a
minus sign or a digit. -/
theorem pae_head (n : Int) (ns : List Int) :
    ∃ c r, print_arr_elems ((n :: ns).map Node.int) = c :: r
      ∧ (c = '-' ∨ is_number c = true) := by
  obtain ⟨c, r, hcr, hcd⟩ := int_to_dec_head n
  cases ns with
  | nil =>
      refine ⟨c, r ++ [' ', ']'], ?_, hcd⟩
      show int_to_dec n ++ [' ', ']'] = _
      rw [hcr, List.cons_append]
  | cons m ns2 =>
      refine ⟨c, r ++ ',' :: ' ' :: print_arr_elems ((m :: ns2).map Node.int), ?_, hcd⟩
      show int_to_dec n ++ ',' :: ' ' :: print_arr_elems ((m :: ns2).map Node.int) = _
      rw [hcr, List.cons_append]

/-- The element text of a non-empty printed integer array is untouched by
`consume_whitespace`. -/
theorem cw_pae (n : Int) (ns : List Int) :
    consume_whitespace (print_arr_elems ((n :: ns).map Node.int))
      = print_arr_elems ((n :: ns).map Node.int) := by
  obtain ⟨c, r, hcr, hcd⟩ := pae_head n ns
  rw [hcr]
  show List.dropWhile _ (c :: r) = _
  rw [List.dropWhile_cons, if_neg (by
    simp [head_beq_false c ' ' hcd (by decide) (by decide),
      head_beq_false c '\t' hcd (by decide) (by decide)])]

/-- The element text of a non-empty printed integer array is non-empty. -/
theorem pae_ne (n : Int) (ns : List Int) :
    (print_arr_elems ((n :: ns).map Node.int)).isEmpty = false := by
  obtain ⟨c, r, hcr, _⟩ := pae_head n ns
  rw [hcr]
  rfl

/-- Its head is neither `#` nor `]`. -/
theorem pae_head_facts (n : Int) (ns : List Int) :
    ((print_arr_elems ((n :: ns).map Node.int)).headD nullch == '#') = false
    ∧ ((print_arr_elems ((n :: ns).map Node.int)).headD nullch == ']') = false := by
  obtain ⟨c, r, hcr, hcd⟩ := pae_head n ns
  rw [hcr, List.headD_cons]
  exact ⟨head_beq_false c '#' hcd (by decide) (by decide),
    head_beq_false c ']' hcd (by decide) (by decide)⟩

/-- Skipping whitespace after the element separator lands on the next
element text. -/
theorem skip_ws_sp_pae (n : Int) (ns : List Int) (ls : List (List Char)) :
    skip_ws_comments (' ' :: print_arr_elems ((n :: ns).map Node.int)) ls
      = .ok (print_arr_elems ((n :: ns).map Node.int), ls) :=
  skip_ws_sp _ _ (cw_pae n ns) (pae_ne n ns) (pae_head_facts n ns).1

/-- `determine_value_type` of the first-element slice (the text up to the
first `,`/`]`/`#`) of a printed integer array is INT. -/
theorem dvt_pae_slice (n : Int) (ns : List Int) :
    determine_value_type ((print_arr_elems ((n :: ns).map Node.int)).takeWhile
      (fun c => !(c == ',' || c == ']' || c == '#'))) = .ok .INT := by
  have hget : ∀ c ∈ int_to_dec n,
      (fun c => !(c == ',' || c == ']' || c == '#')) c = true := by
    intro c hc
    rcases int_to_dec_chars n c hc with h | h
    · rw [h]; decide
    · simp [digit_beq_false c ',' h (by decide), digit_beq_false c ']' h (by decide),
        digit_beq_false c '#' h (by decide)]
  cases ns with
  | nil =>
      show determine_value_type ((int_to_dec n ++ [' ', ']']).takeWhile _) = _
      rw [(takeWhile_append_of_all _ _ hget).1,
        show ([' ', ']'] : List Char).takeWhile
          (fun c => !(c == ',' || c == ']' || c == '#')) = [' '] from rfl]
      exact dvt_int_tail n [' '] (by decide)
  | cons m ns2 =>
      show determine_value_type ((int_to_dec n
        ++ ',' :: ' ' :: print_arr_elems ((m :: ns2).map Node.int)).takeWhile _) = _
      rw [(takeWhile_append_of_all _ _ hget).1,
        show ((',' :: ' ' :: print_arr_elems ((m :: ns2).map Node.int)).takeWhile
          (fun c => !(c == ',' || c == ']' || c == '#'))) = [] from rfl,
        List.append_nil]
      exact dvt_int_to_dec n

/-- One step of `parse_value_array<T>` on an element followed by the
printed separator `", "`: the element is consed onto the recursive
result. -/
theorem pva_step (fuel : Nat) (kind : ValKind) (s : List Char)
    (ls : List (List Char)) (v : Node) (rest : List Char)
    (hne : s.isEmpty = false) (hhd : (s.headD nullch == ']') = false)
    (hpv : parse_value fuel s ls = .ok (v, ',' :: ' ' :: rest, ls))
    (hkind : node_is_kind v kind = true)
    (hskip : skip_ws_comments (' ' :: rest) ls = .ok (rest, ls)) :
    parse_value_array (fuel + 1) kind s ls
      = match parse_value_array fuel kind rest ls with
        | .error e => .error e
        | .ok (xs, r4, ls4) => .ok (v :: xs, r4, ls4) := by
  simp only [parse_value_array, hne, hhd, Bool.or_self, Bool.false_eq_true,
    if_false, hpv, hkind, eq_self_iff_true, not_true, List.headD_cons,
    show skip_ws_comments (',' :: ' ' :: rest) ls
      = .ok (',' :: ' ' :: rest, ls) from rfl,
    show ((',' : Char) == ',') = true from rfl,
    List.drop_succ_cons, List.drop_zero, hskip]

/-- The last step of `parse_value_array<T>`: the element is followed by
the printed closer `" ]"`, which ends the loop and skips the bracket. -/
theorem pva_last (fuel : Nat) (kind : ValKind) (s : List Char)
    (ls : List (List Char)) (v : Node)
    (hne : s.isEmpty = false) (hhd : (s.headD nullch == ']') = false)
    (hpv : parse_value fuel s ls = .ok (v, [' ', ']'], ls))
    (hkind : node_is_kind v kind = true) :
    parse_value_array (fuel + 1) kind s ls = .ok ([v], [], ls) := by
  simp only [parse_value_array, hne, hhd, Bool.or_self, Bool.false_eq_true,
    if_false, hpv, hkind, eq_self_iff_true, not_true, List.headD_cons,
    show skip_ws_comments ([' ', ']'] : List Char) ls = .ok ([']'], ls) from rfl,
    show ((']' : Char) == ',') = false from rfl, not_false_iff, if_true,
    List.drop_succ_cons, List.drop_zero]

/-- `parse_value_array<int64_t>` consumes the whole printed element list
of a non-empty integer array, closing bracket included, and returns the
elements. -/
theorem parse_value_array_ints :
    ∀ (ns : List Int) (n : Int) (q : Nat) (ls : List (List Char)),
    (∀ m ∈ n :: ns, -(2 ^ 63) ≤ m ∧ m ≤ 2 ^ 63 - 1) →
    parse_value_array (ns.length + q + 2) .kint
      (print_arr_elems ((n :: ns).map Node.int)) ls
      = .ok ((n :: ns).map Node.int, [], ls) := by
  intro ns
  induction ns with
  | nil =>
      intro n q ls hrange
      obtain ⟨hlo, hhi⟩ := hrange n (List.mem_cons_self _ _)
      have hne : (int_to_dec n ++ [' ', ']']).isEmpty = false := by
        obtain ⟨c, r, hcr, _⟩ := int_to_dec_head n
        rw [hcr]
        rfl
      have hhd : ((int_to_dec n ++ [' ', ']']).headD nullch == ']') = false := by
        obtain ⟨c, r, hcr, hcd⟩ := int_to_dec_head n
        rw [hcr, List.cons_append, List.headD_cons]
        exact head_beq_false c ']' hcd (by decide) (by decide)
      have hpv : parse_value (q + 1) (int_to_dec n ++ [' ', ']']) ls
          = .ok (.int n, [' ', ']'], ls) :=
        parse_value_int_tail q n [' ', ']'] ls hlo hhi (Or.inr rfl)
      rw [show ([] : List Int).length + q + 2 = (q + 1) + 1 from by simp only [List.length_nil]; omega]
      show parse_value_array ((q + 1) + 1) .kint (int_to_dec n ++ [' ', ']']) ls
        = .ok ([Node.int n], [], ls)
      exact pva_last (q + 1) .kint _ ls (.int n) hne hhd hpv rfl
  | cons m ns2 ih =>
      intro n q ls hrange
      obtain ⟨hlo, hhi⟩ := hrange n (List.mem_cons_self _ _)
      have hrange2 : ∀ x ∈ m :: ns2, -(2 ^ 63) ≤ x ∧ x ≤ 2 ^ 63 - 1 :=
        fun x hx => hrange x (List.mem_cons_of_mem _ hx)
      have hne : (int_to_dec n
          ++ ',' :: ' ' :: print_arr_elems ((m :: ns2).map Node.int)).isEmpty
          = false := by
        obtain ⟨c, r, hcr, _⟩ := int_to_dec_head n
        rw [hcr]
        rfl
      have hhd : ((int_to_dec n
          ++ ',' :: ' ' :: print_arr_elems ((m :: ns2).map Node.int)).headD nullch
          == ']') = false := by
        obtain ⟨c, r, hcr, hcd⟩ := int_to_dec_head n
        rw [hcr, List.cons_append, List.headD_cons]
        exact head_beq_false c ']' hcd (by decide) (by decide)
      have hpv : parse_value (ns2.length + q + 2)
          (int_to_dec n ++ ',' :: ' ' :: print_arr_elems ((m :: ns2).map Node.int)) ls
          = .ok (.int n,
              ',' :: ' ' :: print_arr_elems ((m :: ns2).map Node.int), ls) := by
        rw [show (ns2.length + q + 2 : Nat) = ns2.length + q + 1 + 1 from rfl]
        exact parse_value_int_tail (ns2.length + q + 1) n _ ls hlo hhi (Or.inl rfl)
      rw [show (m :: ns2).length + q + 2 = (ns2.length + q + 2) + 1 from by
        simp only [List.length_cons]; omega]
      show parse_value_array ((ns2.length + q + 2) + 1) .kint
        (int_to_dec n ++ ',' :: ' ' :: print_arr_elems ((m :: ns2).map Node.int)) ls
        = .ok (Node.int n :: (m :: ns2).map Node.int, [], ls)
      rw [pva_step (ns2.length + q + 2) .kint _ ls (.int n) _ hne hhd hpv rfl
        (skip_ws_sp_pae m ns2 ls)]
      rw [ih m q ls hrange2]

/-- `parse_array` on the full printed text of an integer array: the
elements are recovered and the text consumed. -/
theorem parse_array_ints (ns : List Int) (q : Nat) (ls : List (List Char))
    (hrange : ∀ m ∈ ns, -(2 ^ 63) ≤ m ∧ m ≤ 2 ^ 63 - 1) :
    parse_array (ns.length + q + 2)
      ('[' :: ' ' :: print_arr_elems (ns.map Node.int)) ls
      = .ok (.arr (ns.map Node.int), [], ls) := by
  cases ns with
  | nil =>
      show parse_array (q + 1 + 1) ('[' :: ' ' :: [' ', ']']) ls = _
      rfl
  | cons n ns2 =>
      have hskip := skip_ws_sp_pae n ns2 ls
      rw [show (n :: ns2).length + q + 2 = ns2.length + q + 2 + 1 from by
        simp only [List.length_cons]; omega]
      simp only [parse_array, List.drop_succ_cons, List.drop_zero, hskip,
        (pae_head_facts n ns2).2, Bool.false_eq_true, if_false,
        dvt_pae_slice n ns2]
      rw [parse_value_array_ints ns2 n q ls hrange]
      rfl

/-- `is_date` rejects a text opening with `[`. -/
theorem is_date_lb (s : List Char) : is_date ('[' :: s) = false := by
  simp [is_date, List.takeWhile_cons, show is_date_char '[' = false from rfl]

/-- `determine_value_type` on a text opening with `[` is ARRAY. -/
theorem dvt_arr (s : List Char) : determine_value_type ('[' :: s) = .ok .ARRAY := by
  simp only [determine_value_type, List.headD_cons, is_date_lb,
    show (('[' == '"') || ('[' == '\'')) = false from rfl,
    show (is_number '[' || ('[' == '-') || ('[' == '+')) = false from rfl,
    show (('[' == 't') || ('[' == 'f')) = false from rfl,
    show ('[' == '[') = true from rfl,
    Bool.false_eq_true, if_false, if_true]

/-- `parse_value` on the printed text of an integer array. -/
theorem parse_value_arr (ns : List Int) (q : Nat) (ls : List (List Char))
    (hrange : ∀ m ∈ ns, -(2 ^ 63) ≤ m ∧ m ≤ 2 ^ 63 - 1) :
    parse_value (ns.length + q + 3) (print_node (.arr (ns.map Node.int))) ls
      = .ok (.arr (ns.map Node.int), [], ls) := by
  rw [show ns.length + q + 3 = ns.length + q + 2 + 1 from rfl]
  show parse_value (ns.length + q + 2 + 1)
    ('[' :: ' ' :: print_arr_elems (ns.map Node.int)) ls = _
  simp only [parse_value, dvt_arr]
  exact parse_array_ints ns q ls hrange

/-- Every character of the printed zero-offset datetime is in the date
character class. -/
theorem rfc3339_date_chars (y mo dd hh mi se mu : Int)
    (hy : 0 ≤ y) (hmo : 0 ≤ mo) (hdd : 0 ≤ dd) (hhh : 0 ≤ hh) (hmi : 0 ≤ mi)
    (hse : 0 ≤ se) (hmu : 0 ≤ mu) :
    ∀ c ∈ rfc3339_text y mo dd hh mi se mu, is_date_char c = true := by
  have hseg : ∀ (x : Int) (w : Nat), 0 ≤ x → ∀ c ∈ pad w (int_to_dec x),
      is_date_char c = true := by
    intro x w hx c hc
    rw [int_to_dec_nonneg x hx] at hc
    exact is_date_char_of_digit c
      (pad_all_digits w _ (nat_to_dec_all_digits x.natAbs) c hc)
  unfold rfc3339_text
  refine List.forall_mem_append.mpr ⟨hseg y 4 hy, List.forall_mem_cons.mpr ⟨rfl, ?_⟩⟩
  refine List.forall_mem_append.mpr ⟨hseg mo 2 hmo, List.forall_mem_cons.mpr ⟨rfl, ?_⟩⟩
  refine List.forall_mem_append.mpr ⟨hseg dd 2 hdd, List.forall_mem_cons.mpr ⟨rfl, ?_⟩⟩
  refine List.forall_mem_append.mpr ⟨hseg hh 2 hhh, List.forall_mem_cons.mpr ⟨rfl, ?_⟩⟩
  refine List.forall_mem_append.mpr ⟨hseg mi 2 hmi, List.forall_mem_cons.mpr ⟨rfl, ?_⟩⟩
  refine List.forall_mem_append.mpr ⟨hseg se 2 hse, ?_⟩
  refine List.forall_mem_append.mpr ⟨?_, ?_⟩
  · by_cases hc0 : 0 < mu
    · rw [if_pos hc0]
      exact List.forall_mem_cons.mpr ⟨rfl, hseg mu 6 hmu⟩
    · rw [if_neg hc0]
      intro c hc
      simp at hc
  · intro c hc
    rw [List.mem_singleton.mp hc]
    rfl

/-- The printed zero-offset datetime contains no newline. -/
theorem rfc3339_no_nl (y mo dd hh mi se mu : Int)
    (hy : 0 ≤ y) (hmo : 0 ≤ mo) (hdd : 0 ≤ dd) (hhh : 0 ≤ hh) (hmi : 0 ≤ mi)
    (hse : 0 ≤ se) (hmu : 0 ≤ mu) :
    ∀ c ∈ rfc3339_text y mo dd hh mi se mu, c ≠ '\n' := by
  intro c hc hceq
  subst hceq
  have := rfc3339_date_chars y mo dd hh mi se mu hy hmo hdd hhh hmi hse hmu '\n' hc
  exact absurd this (by decide)

/-- `getD` across a prefix of known length. -/
theorem getD_skip (l₁ l₂ : List Char) (k n m : Nat) (d : Char)
    (hl : l₁.length = k) (hnm : n = k + m) :
    (l₁ ++ l₂).getD n d = l₂.getD m d := by
  subst hnm
  simp only [List.getD_eq_getElem?_getD]
  rw [List.getElem?_append_right (by omega), hl, Nat.add_sub_cancel_left]

/-- `getD` past a cons cell. -/
theorem getD_cons_succ (c : Char) (l : List Char) (n m : Nat) (d : Char)
    (hnm : n = m + 1) :
    (c :: l).getD n d = l.getD m d := by
  subst hnm
  simp only [List.getD_eq_getElem?_getD, List.getElem?_cons_succ]

/-- The printed zero-offset datetime with in-range fields passes the
`is_date` shape test: the whole text is date characters of length at
least 20 with the separators at positions 4, 7, 10, 13 and 16. -/
theorem is_date_rfc (y mo dd hh mi se mu : Int)
    (hy1 : 0 ≤ y) (hy2 : y ≤ 9999) (hmo1 : 0 ≤ mo) (hmo2 : mo ≤ 99)
    (hd1 : 0 ≤ dd) (hd2 : dd ≤ 99) (hh1 : 0 ≤ hh) (hh2 : hh ≤ 99)
    (hmi1 : 0 ≤ mi) (hmi2 : mi ≤ 99) (hs1 : 0 ≤ se) (hs2 : se ≤ 99)
    (hu1 : 0 ≤ mu) :
    is_date (rfc3339_text y mo dd hh mi se mu) = true := by
  obtain ⟨hYl, hYd, -⟩ := field_block y 4 hy1
    (by rw [show (10 : Nat) ^ 4 = 10000 from rfl]; omega) (by omega)
  obtain ⟨hMOl, -, -⟩ := field_block mo 2 hmo1
    (by rw [show (10 : Nat) ^ 2 = 100 from rfl]; omega) (by omega)
  obtain ⟨hDDl, -, -⟩ := field_block dd 2 hd1
    (by rw [show (10 : Nat) ^ 2 = 100 from rfl]; omega) (by omega)
  obtain ⟨hHHl, -, -⟩ := field_block hh 2 hh1
    (by rw [show (10 : Nat) ^ 2 = 100 from rfl]; omega) (by omega)
  obtain ⟨hMIl, -, -⟩ := field_block mi 2 hmi1
    (by rw [show (10 : Nat) ^ 2 = 100 from rfl]; omega) (by omega)
  obtain ⟨hSEl, -, -⟩ := field_block se 2 hs1
    (by rw [show (10 : Nat) ^ 2 = 100 from rfl]; omega) (by omega)
  have hall := rfc3339_date_chars y mo dd hh mi se mu hy1 hmo1 hd1 hh1 hmi1 hs1 hu1
  have htw : (rfc3339_text y mo dd hh mi se mu).takeWhile is_date_char
      = rfc3339_text y mo dd hh mi se mu := List.takeWhile_eq_self_iff.mpr hall
  have hlen : 20 ≤ (rfc3339_text y mo dd hh mi se mu).length := by
    simp only [rfc3339_text, List.length_append, List.length_cons]
    rw [hYl, hMOl, hDDl, hHHl, hMIl, hSEl]
    omega
  have h4 : (rfc3339_text y mo dd hh mi se mu).getD 4 nullch = '-' := by
    simp only [rfc3339_text]
    rw [getD_skip _ _ 4 4 0 _ hYl rfl]
    rfl
  have h7 : (rfc3339_text y mo dd hh mi se mu).getD 7 nullch = '-' := by
    simp only [rfc3339_text]
    rw [getD_skip _ _ 4 7 3 _ hYl rfl, getD_cons_succ '-' _ 3 2 _ rfl,
      getD_skip _ _ 2 2 0 _ hMOl rfl]
    rfl
  have h10 : (rfc3339_text y mo dd hh mi se mu).getD 10 nullch = 'T' := by
    simp only [rfc3339_text]
    rw [getD_skip _ _ 4 10 6 _ hYl rfl, getD_cons_succ '-' _ 6 5 _ rfl,
      getD_skip _ _ 2 5 3 _ hMOl rfl, getD_cons_succ '-' _ 3 2 _ rfl,
      getD_skip _ _ 2 2 0 _ hDDl rfl]
    rfl
  have h13 : (rfc3339_text y mo dd hh mi se mu).getD 13 nullch = ':' := by
    simp only [rfc3339_text]
    rw [getD_skip _ _ 4 13 9 _ hYl rfl, getD_cons_succ '-' _ 9 8 _ rfl,
      getD_skip _ _ 2 8 6 _ hMOl rfl, getD_cons_succ '-' _ 6 5 _ rfl,
      getD_skip _ _ 2 5 3 _ hDDl rfl, getD_cons_succ 'T' _ 3 2 _ rfl,
      getD_skip _ _ 2 2 0 _ hHHl rfl]
    rfl
  have h16 : (rfc3339_text y mo dd hh mi se mu).getD 16 nullch = ':' := by
    simp only [rfc3339_text]
    rw [getD_skip _ _ 4 16 12 _ hYl rfl, getD_cons_succ '-' _ 12 11 _ rfl,
      getD_skip _ _ 2 11 9 _ hMOl rfl, getD_cons_succ '-' _ 9 8 _ rfl,
      getD_skip _ _ 2 8 6 _ hDDl rfl, getD_cons_succ 'T' _ 6 5 _ rfl,
      getD_skip _ _ 2 5 3 _ hHHl rfl, getD_cons_succ ':' _ 3 2 _ rfl,
      getD_skip _ _ 2 2 0 _ hMIl rfl]
    rfl
  simp only [is_date, htw, Bool.and_eq_true, decide_eq_true_eq, beq_iff_eq,
    ge_iff_le]
  exact ⟨⟨⟨⟨⟨hlen, h4⟩, h7⟩, h10⟩, h13⟩, h16⟩

/-- `determine_value_type` on the printed zero-offset datetime is DATE. -/
theorem dvt_date (y mo dd hh mi se mu : Int)
    (hy1 : 0 ≤ y) (hy2 : y ≤ 9999) (hmo1 : 0 ≤ mo) (hmo2 : mo ≤ 99)
    (hd1 : 0 ≤ dd) (hd2 : dd ≤ 99) (hh1 : 0 ≤ hh) (hh2 : hh ≤ 99)
    (hmi1 : 0 ≤ mi) (hmi2 : mi ≤ 99) (hs1 : 0 ≤ se) (hs2 : se ≤ 99)
    (hu1 : 0 ≤ mu) :
    determine_value_type (rfc3339_text y mo dd hh mi se mu) = .ok .DATE := by
  obtain ⟨hYl, hYd, -⟩ := field_block y 4 hy1
    (by rw [show (10 : Nat) ^ 4 = 10000 from rfl]; omega) (by omega)
  have hne : pad 4 (int_to_dec y) ≠ [] := by
    intro h0
    rw [h0] at hYl
    simp at hYl
  obtain ⟨c, r, hcr⟩ := List.exists_cons_of_ne_nil hne
  have hcd : is_number c = true := hYd c (by rw [hcr]; exact List.mem_cons_self c r)
  have hhd : (rfc3339_text y mo dd hh mi se mu).headD nullch = c := by
    simp only [rfc3339_text]
    rw [hcr, List.cons_append, List.headD_cons]
  simp only [determine_value_type, hhd, digit_beq_false c '"' hcd (by decide),
    digit_beq_false c '\'' hcd (by decide), Bool.or_self, Bool.false_eq_true,
    if_false, is_date_rfc y mo dd hh mi se mu hy1 hy2 hmo1 hmo2 hd1 hd2 hh1 hh2
      hmi1 hmi2 hs1 hs2 hu1, if_true]

/-- The printed zero-offset datetime is untouched by
`consume_whitespace`. -/
theorem cw_date (y mo dd hh mi se mu : Int) (hy1 : 0 ≤ y) (hy2 : y ≤ 9999) :
    consume_whitespace (rfc3339_text y mo dd hh mi se mu)
      = rfc3339_text y mo dd hh mi se mu := by
  obtain ⟨hYl, hYd, -⟩ := field_block y 4 hy1
    (by rw [show (10 : Nat) ^ 4 = 10000 from rfl]; omega) (by omega)
  have hne : pad 4 (int_to_dec y) ≠ [] := by
    intro h0
    rw [h0] at hYl
    simp at hYl
  obtain ⟨c, r, hcr⟩ := List.exists_cons_of_ne_nil hne
  have hcd : is_number c = true := hYd c (by rw [hcr]; exact List.mem_cons_self c r)
  simp only [rfc3339_text]
  rw [hcr, List.cons_append]
  show List.dropWhile _ (c :: _) = _
  rw [List.dropWhile_cons, if_neg (by
    simp [digit_beq_false c ' ' hcd (by decide), digit_beq_false c '\t' hcd (by decide)])]

/-- `parse_value` on the printed zero-offset datetime with in-range
fields recovers the datetime. -/
theorem parse_value_date (m : Nat) (y mo dd hh mi se mu : Int)
    (ls : List (List Char))
    (hy1 : 0 ≤ y) (hy2 : y ≤ 9999) (hmo1 : 0 ≤ mo) (hmo2 : mo ≤ 99)
    (hd1 : 0 ≤ dd) (hd2 : dd ≤ 99) (hh1 : 0 ≤ hh) (hh2 : hh ≤ 99)
    (hmi1 : 0 ≤ mi) (hmi2 : mi ≤ 99) (hs1 : 0 ≤ se) (hs2 : se ≤ 99)
    (hu1 : 0 ≤ mu) :
    parse_value (m + 1) (rfc3339_text y mo dd hh mi se mu) ls
      = .ok (.date ⟨y, mo, dd, hh, mi, se, mu, 0, 0⟩, [], ls) := by
  simp only [parse_value, dvt_date y mo dd hh mi se mu hy1 hy2 hmo1 hmo2 hd1 hd2
    hh1 hh2 hmi1 hmi2 hs1 hs2 hu1]
  rw [show parse_date (rfc3339_text y mo dd hh mi se mu)
    = .ok (⟨y, mo, dd, hh, mi, se, mu, 0, 0⟩, [])
    from parse_date_rfc3339 y mo dd hh mi se mu hy1 hy2 hmo1 hmo2 hd1 hd2
      hh1 hh2 hmi1 hmi2 hs1 hs2 hu1]
  rfl

/-- The printed element list of an integer array is longer than the
element count plus the closer. -/
theorem pae_len : ∀ ns : List Int,
    ns.length + 2 ≤ (print_arr_elems (ns.map Node.int)).length := by
  intro ns
  induction ns with
  | nil => simp [print_arr_elems]
  | cons n ns2 ih =>
      have h1 : 0 < (int_to_dec n).length := List.length_pos.mpr (int_to_dec_ne_nil n)
      cases ns2 with
      | nil =>
          rw [show print_arr_elems ([n].map Node.int)
            = int_to_dec n ++ [' ', ']'] from rfl]
          simp only [List.length_append, List.length_cons, List.length_nil]
          omega
      | cons m ns3 =>
          rw [show print_arr_elems ((n :: m :: ns3).map Node.int)
            = int_to_dec n
              ++ ',' :: ' ' :: print_arr_elems ((m :: ns3).map Node.int) from rfl]
          simp only [List.length_append, List.length_cons] at ih ⊢
          omega

/-- No newline inside the printed element list of an integer array. -/
theorem pae_no_nl : ∀ ns : List Int,
    ∀ c ∈ print_arr_elems (ns.map Node.int), c ≠ '\n' := by
  intro ns
  induction ns with
  | nil =>
      intro c hc hceq
      subst hceq
      exact absurd hc (by decide)
  | cons n ns2 ih =>
      cases ns2 with
      | nil =>
          intro c hc hceq
          subst hceq
          rw [show print_arr_elems ([n].map Node.int)
            = int_to_dec n ++ [' ', ']'] from rfl] at hc
          rcases List.mem_append.mp hc with h1 | h1
          · exact int_to_dec_no_nl n _ h1 rfl
          · exact absurd h1 (by decide)
      | cons m ns3 =>
          intro c hc hceq
          subst hceq
          rw [show print_arr_elems ((n :: m :: ns3).map Node.int)
            = int_to_dec n
              ++ ',' :: ' ' :: print_arr_elems ((m :: ns3).map Node.int) from rfl] at hc
          rcases List.mem_append.mp hc with h1 | h1
          · exact int_to_dec_no_nl n _ h1 rfl
          · rcases List.mem_cons.mp h1 with h2 | h2
            · exact absurd h2 (by decide)
            · rcases List.mem_cons.mp h2 with h3 | h3
              · exact absurd h3 (by decide)
              · exact ih _ h3 rfl

/-- No newline in the printed integer-array value. -/
theorem arr_no_nl (ns : List Int) :
    ∀ c ∈ print_node (.arr (ns.map Node.int)), c ≠ '\n' := by
  intro c hc hceq
  subst hceq
  rw [show print_node (.arr (ns.map Node.int))
    = '[' :: ' ' :: print_arr_elems (ns.map Node.int) from rfl] at hc
  rcases List.mem_cons.mp hc with h1 | h1
  · exact absurd h1 (by decide)
  · rcases List.mem_cons.mp h1 with h2 | h2
    · exact absurd h2 (by decide)
    · exact pae_no_nl ns _ h2 rfl

/-- Each printed value is no longer than the whole printed table. -/
theorem entry_print_le : ∀ (t : Table) (p : List Char × Node), p ∈ t →
    (∀ q ∈ t, (∃ n, q.2 = Node.int n) ∨ (∃ b, q.2 = Node.bool b)
      ∨ (∃ dt, q.2 = Node.date dt) ∨ (∃ xs, q.2 = Node.arr xs)) →
    (print_node p.2).length ≤ (print_table_body 0 t).length := by
  intro t
  induction t with
  | nil => intro p hp _; simp at hp
  | cons q t2 ih =>
      intro p hp hscal
      obtain ⟨kq, vq⟩ := q
      rw [print_flat_shape kq vq t2 (hscal (kq, vq) (List.mem_cons_self _ _))]
      simp only [List.length_append, List.length_cons]
      rcases List.mem_cons.mp hp with h | h
      · subst h
        dsimp only
        omega
      · have := ih p h (fun r hr => hscal r (List.mem_cons_of_mem _ hr))
        omega

/-! ## The claims -/

/-- C7.  Dotted-get and direct-get agree: for keys `a`, `b`, `c` free of
dots (the components of the dotted key `a.b.c`), when the root maps `a`
to a table `T₁` and `T₁` maps `b` to a table `T₂`,
`root.get_qualified("a.b.c")` is exactly `T₂.get(c)` — the same node
as the chained `get(a)`/`get(b)`/`get(c)`, and absent (the
`std::out_of_range` key-missing throw) exactly when the chained final
`get(c)` is. -/
theorem claim_C7 (root T1 T2 : Table) (a b c : List Char)
    (ha : '.' ∉ a) (hb : '.' ∉ b) (hc : '.' ∉ c)
    (h1 : get root a = some (.table T1)) (h2 : get T1 b = some (.table T2)) :
    get_qualified root (a ++ '.' :: b ++ '.' :: c) = get T2 c := by
  unfold get_qualified resolve_qualified
  rw [show a ++ '.' :: b ++ '.' :: c = a ++ '.' :: (b ++ '.' :: c) from by simp,
    split_append_sep _ _ _ ha, split_append_sep _ _ _ hb, split_no_sep _ _ hc]
  simp [qual_walk, get_table, h1, h2]

/-- Witness for C7: a three-level concrete document where the qualified
lookup succeeds and returns the leaf. -/
theorem claim_C7_witness :
    get_qualified
        [(chars "a", .table [(chars "b", .table [(chars "c", Node.int 5)])])]
        (chars "a.b.c")
      = some (Node.int 5) := by
  have h := claim_C7
    [(chars "a", .table [(chars "b", .table [(chars "c", Node.int 5)])])]
    [(chars "b", .table [(chars "c", Node.int 5)])]
    [(chars "c", Node.int 5)]
    (chars "a") (chars "b") (chars "c")
    (by decide) (by decide) (by decide) (by rfl) (by rfl)
  rw [show chars "a.b.c" = chars "a" ++ '.' :: chars "b" ++ '.' :: chars "c" from rfl, h]
  rfl

/-- C8.  Integer overflow: for every non-empty digit string whose value
exceeds `2^63 - 1` (the `int64_t` maximum), `parse_int` fails with the
malformed-number error (`std::stoll` throws `std::out_of_range`), rather
than wrapping or truncating. -/
theorem claim_C8 (ds : List Char) (hne : ds ≠ [])
    (hdig : ∀ c ∈ ds, is_number c = true)
    (hover : 2 ^ 63 - 1 < nat_val ds) :
    parse_int ds = .error .malformedNumberOutOfRange := by
  obtain ⟨d, ds2, rfl⟩ := List.exists_cons_of_ne_nil hne
  have hd := is_number_facts d (hdig d (List.mem_cons_self d ds2))
  have hfilter : (d :: ds2).filter (fun c => !(c == '_')) = d :: ds2 := by
    rw [List.filter_eq_self]
    intro c hcm
    simp [(is_number_facts c (hdig c hcm)).2.2.2.1]
  have htake : (d :: ds2).takeWhile is_number = d :: ds2 :=
    List.takeWhile_eq_self_iff.mpr hdig
  unfold parse_int stoll_model
  rw [hfilter]
  simp only [List.dropWhile_cons, hd.1, Bool.false_eq_true, if_false,
    List.headD_cons, hd.2.1, hd.2.2.1, Bool.or_self, Bool.false_eq_true,
    if_false, htake, List.isEmpty_cons, Bool.false_eq_true]
  rw [if_pos]
  · rfl
  · right
    push_cast
    omega

/-- Witness for C8: the spec's own overflow example
`9999999999999999999`. -/
theorem claim_C8_witness :
    2 ^ 63 - 1 < nat_val (chars "9999999999999999999")
    ∧ parse_int (chars "9999999999999999999") = .error .malformedNumberOutOfRange :=
  ⟨by decide, claim_C8 (chars "9999999999999999999") (by decide) (by decide) (by decide)⟩

/-- The `eat_digits` trace stays within the remaining region, and on
success the position/suffix invariant `pos + |s|` is preserved. -/
theorem eat_digits_trace_le (len : Nat) :
    ∀ (acc pos : Nat) (s : List Char),
      (∀ i ∈ (eat_digits acc pos s len).2, i ≤ pos + s.length)
      ∧ (∀ v pos2 s2, (eat_digits acc pos s len).1 = .ok (v, pos2, s2) →
          pos2 + s2.length = pos + s.length) := by
  induction len with
  | zero =>
      intro acc pos s
      constructor
      · intro i hi
        simp [eat_digits] at hi
      · intro v pos2 s2 h
        simp only [eat_digits, Except.ok.injEq, Prod.mk.injEq] at h
        obtain ⟨-, h2, h3⟩ := h
        subst h2
        subst h3
        rfl
  | succ n ih =>
      intro acc pos s
      cases s with
      | nil =>
          constructor
          · intro i hi
            simp only [eat_digits, List.mem_singleton] at hi
            omega
          · intro v pos2 s2 h
            simp [eat_digits] at h
      | cons c s2 =>
          cases hc : is_number c with
          | false =>
              constructor
              · intro i hi
                simp [eat_digits, hc] at hi
                simp only [hi, List.length_cons]
                omega
              · intro v pos2 s3 h
                simp [eat_digits, hc] at h
          | true =>
              constructor
              · intro i hi
                simp [eat_digits, hc] at hi
                rcases hi with h | h
                · simp only [h, List.length_cons]
                  omega
                · have := (ih (10 * acc + (c.toNat - 48)) (pos + 1) s2).1 i h
                  simp only [List.length_cons]
                  omega
              · intro v pos2 s3 h
                simp only [eat_digits, hc, Bool.true_eq_false, not_false_eq_true,
                  not_true_eq_false, if_false, Bool.not_true] at h
                have := (ih (10 * acc + (c.toNat - 48)) (pos + 1) s2).2 v pos2 s3 h
                simp only [List.length_cons]
                omega

/-- `eat` preserves the position/suffix invariant. -/
theorem eat_ch_post (c : Char) (pos : Nat) (s : List Char) (p2 : Nat)
    (s2 : List Char) (h : eat_ch c pos s = .ok (p2, s2)) :
    p2 + s2.length = pos + s.length := by
  cases s with
  | nil => simp [eat_ch] at h
  | cons c2 r =>
      by_cases hc : c2 ≠ c
      · simp [eat_ch, if_pos hc] at h
      · simp only [eat_ch, if_neg hc, Except.ok.injEq, Prod.mk.injEq] at h
        obtain ⟨h1, h2⟩ := h
        subst h1
        subst h2
        simp only [List.length_cons]
        omega

/-- The fractional-second loop preserves the position/suffix invariant. -/
theorem eat_micros_post : ∀ (s : List Char) (acc : Int) (pos : Nat),
    (eat_micros acc pos s).2.1 + (eat_micros acc pos s).2.2.length
      = pos + s.length := by
  intro s
  induction s with
  | nil => intro acc pos; simp [eat_micros]
  | cons c r ih =>
      intro acc pos
      by_cases hc : is_number c
      · simp only [eat_micros, if_pos hc, List.length_cons]
        have := ih (10 * acc + ((c.toNat : Int) - 48)) (pos + 1)
        omega
      · simp [eat_micros, if_neg hc]

/-- Bound on a `trBind` trace from bounds on its parts. -/
theorem trBind_le {α β : Type} (x : TR α) (f : α → TR β) (n : Nat)
    (hx : ∀ i ∈ x.2, i ≤ n)
    (hf : ∀ a, x.1 = .ok a → ∀ i ∈ (f a).2, i ≤ n) :
    ∀ i ∈ (trBind x f).2, i ≤ n := by
  obtain ⟨r, tr⟩ := x
  cases r with
  | error e => intro i hi; exact hx i hi
  | ok a =>
      intro i hi
      simp only [trBind, List.mem_append] at hi
      cases hi with
      | inl h => exact hx i h
      | inr h => exact hf a rfl i h

/-- C10 (amended).  Every dereference the `eat_digits` lambda performs
happens at a position at most `date_end` — the position `date_end`
itself included, because the code tests `!is_number(*it)` before
`it == date_end`; and whenever fewer digits remain than the field width
requires (the cursor sits at `date_end`, i.e. the suffix is empty, with
digits still demanded), that very read of position `date_end` happens
and the parse fails with malformed-date. -/
theorem claim_C10 :
    (∀ (cur : List Char), ∀ i ∈ (parse_date_t cur).2, i ≤ find_end_of_date cur)
    ∧ (∀ (acc pos len : Nat),
        (eat_digits acc pos ([] : List Char) (len + 1)).1 = .error .malformedDate
        ∧ (eat_digits acc pos ([] : List Char) (len + 1)).2 = [pos]) := by
  constructor
  · intro cur
    simp only [parse_date_t]
    set n := find_end_of_date cur with hn
    have hdplen : (cur.take n).length ≤ n := by
      rw [List.length_take]
      exact Nat.min_le_left _ _
    apply trBind_le
    · intro i hi
      have := (eat_digits_trace_le 4 0 0 (cur.take n)).1 i hi
      omega
    · rintro ⟨y, py, sy⟩ heq
      have hy : py + sy.length ≤ n := by
        have := (eat_digits_trace_le 4 0 0 (cur.take n)).2 y py sy heq
        omega
      apply trBind_le
      · intro i hi
        simp [trLift] at hi
      · rintro ⟨p1, s1⟩ heq1
        simp only [trLift] at heq1
        have h1 : p1 + s1.length ≤ n := by
          have := eat_ch_post '-' py sy p1 s1 heq1
          omega
        apply trBind_le
        · intro i hi
          have := (eat_digits_trace_le 2 0 p1 s1).1 i hi
          omega
        · rintro ⟨mo, pmo, smo⟩ heqmo
          have hmo : pmo + smo.length ≤ n := by
            have := (eat_digits_trace_le 2 0 p1 s1).2 mo pmo smo heqmo
            omega
          apply trBind_le
          · intro i hi
            simp [trLift] at hi
          · rintro ⟨p2, s2⟩ heq2
            simp only [trLift] at heq2
            have h2 : p2 + s2.length ≤ n := by
              have := eat_ch_post '-' pmo smo p2 s2 heq2
              omega
            apply trBind_le
            · intro i hi
              have := (eat_digits_trace_le 2 0 p2 s2).1 i hi
              omega
            · rintro ⟨dy, pdy, sdy⟩ heqdy
              have hdy : pdy + sdy.length ≤ n := by
                have := (eat_digits_trace_le 2 0 p2 s2).2 dy pdy sdy heqdy
                omega
              apply trBind_le
              · intro i hi
                simp [trLift] at hi
              · rintro ⟨p3, s3⟩ heq3
                simp only [trLift] at heq3
                have h3 : p3 + s3.length ≤ n := by
                  have := eat_ch_post 'T' pdy sdy p3 s3 heq3
                  omega
                apply trBind_le
                · intro i hi
                  have := (eat_digits_trace_le 2 0 p3 s3).1 i hi
                  omega
                · rintro ⟨hr, phr, shr⟩ heqhr
                  have hhr : phr + shr.length ≤ n := by
                    have := (eat_digits_trace_le 2 0 p3 s3).2 hr phr shr heqhr
                    omega
                  apply trBind_le
                  · intro i hi
                    simp [trLift] at hi
                  · rintro ⟨p4, s4⟩ heq4
                    simp only [trLift] at heq4
                    have h4 : p4 + s4.length ≤ n := by
                      have := eat_ch_post ':' phr shr p4 s4 heq4
                      omega
                    apply trBind_le
                    · intro i hi
                      have := (eat_digits_trace_le 2 0 p4 s4).1 i hi
                      omega
                    · rintro ⟨mi, pmi, smi⟩ heqmi
                      have hmi : pmi + smi.length ≤ n := by
                        have := (eat_digits_trace_le 2 0 p4 s4).2 mi pmi smi heqmi
                        omega
                      apply trBind_le
                      · intro i hi
                        simp [trLift] at hi
                      · rintro ⟨p5, s5⟩ heq5
                        simp only [trLift] at heq5
                        have h5 : p5 + s5.length ≤ n := by
                          have := eat_ch_post ':' pmi smi p5 s5 heq5
                          omega
                        apply trBind_le
                        · intro i hi
                          have := (eat_digits_trace_le 2 0 p5 s5).1 i hi
                          omega
                        · rintro ⟨se, pse, sse⟩ heqse
                          have hse : pse + sse.length ≤ n := by
                            have := (eat_digits_trace_le 2 0 p5 s5).2 se pse sse heqse
                            omega
                          apply trBind_le
                          · intro i hi
                            simp [trLift] at hi
                          · rintro ⟨⟩ hequ
                            simp only [trLift] at hequ
                            set mic := (if (sse.headD ((cur.drop n).headD nullch) = '.')
                                then eat_micros 0 (pse + 1) (sse.drop 1)
                                else (0, pse, sse)) with hmicdef
                            have hne2 : ¬ mic.2.2.isEmpty = true := by
                              intro habs
                              rw [if_pos habs] at hequ
                              simp at hequ
                            have hsne : mic.2.2 ≠ [] := by
                              intro h0
                              exact hne2 (by rw [h0]; rfl)
                            have hmic : mic.2.1 + mic.2.2.length ≤ n := by
                              rw [hmicdef]
                              split
                              next hcond =>
                                have hsse : sse ≠ [] := by
                                  intro h0
                                  apply hsne
                                  rw [hmicdef, if_pos hcond, h0]
                                  rfl
                                have hpost := eat_micros_post (sse.drop 1) 0 (pse + 1)
                                have hdl := List.length_drop 1 sse
                                have hlen : 1 ≤ sse.length :=
                                  List.length_pos.mpr hsse
                                omega
                              next hcond => exact hse
                            have hmlen : 1 ≤ mic.2.2.length := List.length_pos.mpr hsne
                            have hdrop := List.length_drop 1 mic.2.2
                            split
                            · apply trBind_le
                              · intro i hi
                                have := (eat_digits_trace_le 2 0 (mic.2.1 + 1)
                                  (mic.2.2.drop 1)).1 i hi
                                omega
                              · rintro ⟨ho, pho, sho⟩ heqho
                                have hho : pho + sho.length ≤ n := by
                                  have := (eat_digits_trace_le 2 0 (mic.2.1 + 1)
                                    (mic.2.2.drop 1)).2 ho pho sho heqho
                                  omega
                                apply trBind_le
                                · intro i hi
                                  simp [trLift] at hi
                                · rintro ⟨p6, s6⟩ heq6
                                  simp only [trLift] at heq6
                                  have h6 : p6 + s6.length ≤ n := by
                                    have := eat_ch_post ':' pho sho p6 s6 heq6
                                    omega
                                  apply trBind_le
                                  · intro i hi
                                    have := (eat_digits_trace_le 2 0 p6 s6).1 i hi
                                    omega
                                  · rintro ⟨moff, pmoff, smoff⟩ heqmoff
                                    intro i hi
                                    simp [trLift] at hi
                            · split
                              · intro i hi
                                simp [trLift] at hi
                              · intro i hi
                                simp [trLift] at hi
  · intro acc pos len
    exact ⟨rfl, rfl⟩

/-- Counterexample to C10 as stated: on the line
`1979-05-27T07:32:00+07:` (which passes the `is_date` lookahead, so
`parse_date` runs on it), `date_end` is position 23, and the
minute-offset `eat_digits(2)` starts with the cursor already at
`date_end`: the trace records a dereference at position 23 — not
strictly before `date_end`, and in fact one past the end of the line,
since the line is 23 characters long.  The parse then fails with
malformed-date. -/
theorem claim_C10_counterexample :
    find_end_of_date (chars "1979-05-27T07:32:00+07:") = 23
    ∧ (chars "1979-05-27T07:32:00+07:").length = 23
    ∧ 23 ∈ (parse_date_t (chars "1979-05-27T07:32:00+07:")).2
    ∧ (parse_date_t (chars "1979-05-27T07:32:00+07:")).1 = .error .malformedDate
    ∧ is_date (chars "1979-05-27T07:32:00+07:") = true := by
  refine ⟨rfl, rfl, ?_, rfl, rfl⟩
  decide

/-- Witness for C10: the amended bound applied at the input above, at
the recorded read position 23. -/
theorem claim_C10_witness :
    (23 : Nat) ≤ find_end_of_date (chars "1979-05-27T07:32:00+07:") :=
  claim_C10.1 (chars "1979-05-27T07:32:00+07:") 23 (by decide)

/-- C9.  Public insertion never fails and silently replaces: for every
table `t`, key `k` and nodes `v₁`, `v₂`, after `t.insert(k, v₁)` and then
`t.insert(k, v₂)` the lookup `t.get(k)` yields `v₂` (the `map_[key] =
value` assignment of `table::insert` overwrites, so key uniqueness is
enforced only by the parser's pre-insertion `contains` check, not by the
table API). -/
theorem claim_C9 (t : Table) (k : List Char) (v₁ v₂ : Node) :
    get (insert (insert t k v₁) k v₂) k = some v₂ :=
  get_insert_self _ _ _

/-- C3.  Homogeneous boolean value arrays do not parse: on the line
`a = [true, false]` the array parser's type switch (which has cases only
for STRING, INT, FLOAT, DATE, ARRAY and INLINE_TABLE) falls into the
`default:` branch and throws "Unable to parse array", contradicting the
specification's "a value array may hold scalars of any one concrete
scalar kind". -/
theorem claim_C3 : parse (chars "a = [true, false]") = .error .unableToParseArray := by
  rfl

/-- C5.  A key/value line whose key is already present in the table being
filled fails with the key-duplicate error; this is the single
`parse_key_value` used for top-level lines and for inline-table entries.
In particular the two-line document `a = 1` / `a = 2` fails, as does the
inline table `t = { x = 1, x = 2 }`. -/
theorem claim_C5 :
    (∀ (fuel : Nat) (curr : Table) (cur : List Char) (lines : List (List Char))
        (key r : List Char),
        parse_key cur (fun c => c == '=') = .ok (key, r) →
        contains curr key = true →
        parse_key_value (fuel + 1) curr cur lines = .error .keyAlreadyPresent)
    ∧ parse (chars "a = 1\na = 2") = .error .keyAlreadyPresent
    ∧ parse (chars "t = { x = 1, x = 2 }") = .error .keyAlreadyPresent := by
  refine ⟨?_, by rfl, by rfl⟩
  intro fuel curr cur lines key r hkey hdup
  simp only [parse_key_value, hkey, hdup, if_true]

/-- Witness for C5: the general statement applied to the second line of
the failing document, with the table already holding `a`. -/
theorem claim_C5_witness :
    parse_key_value 1 [(chars "a", Node.int 1)] (chars "a = 2") []
      = .error .keyAlreadyPresent :=
  claim_C5.1 0 [(chars "a", Node.int 1)] (chars "a = 2") [] (chars "a")
    (chars "= 2") (by rfl) (by rfl)

/-- C4.  Reopening `[a]`: the redefinition check of `parse_single_table`
fires exactly when the existing table is empty or holds a direct scalar
(`value`) entry — an existing table that is non-empty and holds only
sub-tables, sub-table-arrays or arrays is adopted without error and
without effect (the root is unchanged and the cursor points at it). -/
theorem claim_C4 (t : Table) :
    parse_single_table (chars "a]") [(chars "a", Node.table t)]
      = if empty t || t.any (fun p => is_value p.2) then .error .redefinitionOfTable
        else .ok ([(chars "a", Node.table t)], [.intoTable (chars "a")], []) := by
  rfl

/-- Counterexample to C4 as stated: `[a]` followed by `[a]` — the first
`[a]` defines the table explicitly and leaves it with no direct keys, so
by the claim the second header should be adopted without error; the code
throws "Redefinition of table" because its check also fires on an empty
table. -/
theorem claim_C4_counterexample :
    parse (chars "[a]\n[a]") = .error .redefinitionOfTable := by
  rfl

/-- C6.  Header traversal through an existing table array always descends
into its last element: whenever a dotted header component resolves to a
`table_array` of length `n` (in `parse_single_table` or in the traversal
branch of `parse_table_array`, both of which run `header_component`),
the cursor path extends by a step into index `n - 1`, and resolving that
step lands on the last table of the array. -/
theorem claim_C6 (curr : Table) (part : List Char) (ts : List Table)
    (hget : get curr part = some (.tarray ts)) (hne : ts ≠ []) :
    header_component curr part = .ok (.intoTA part (ts.length - 1), false, curr)
    ∧ get_at curr [.intoTA part (ts.length - 1)] = ts.getLast?
    ∧ ∃ last, ts.getLast? = some last := by
  refine ⟨?_, ?_, ?_⟩
  · simp only [header_component, hget]
  · simp only [get_at, hget]
    rw [List.getLast?_eq_getElem?]
    cases h : ts[ts.length - 1]? <;> simp [h]
  · exact Option.isSome_iff_exists.mp (List.getLast?_isSome.mpr hne)

/-- Witness for C6: a table holding a two-element table array; the
traversal step lands on element 1, the last. -/
theorem claim_C6_witness :
    header_component [(chars "a", Node.tarray [[], [(chars "x", Node.int 1)]])] (chars "a")
      = .ok (.intoTA (chars "a") 1, false,
          [(chars "a", Node.tarray [[], [(chars "x", Node.int 1)]])])
    ∧ get_at [(chars "a", Node.tarray [[], [(chars "x", Node.int 1)]])]
        [.intoTA (chars "a") 1] = some [(chars "x", Node.int 1)] := by
  obtain ⟨h1, h2, -⟩ := claim_C6 [(chars "a", Node.tarray [[], [(chars "x", Node.int 1)]])]
    (chars "a") [[], [(chars "x", Node.int 1)]] (by rfl) (by simp)
  norm_num at h1 h2
  exact ⟨h1, by rw [h2]⟩

/-- C2. Amended scalar-printing claim: `value<std::string>::print` writes
the string data raw — `stream << data_` with no surrounding quotes and no
escaping (the counterexample shows a string containing a quote, a
backslash and a newline emitted verbatim); integers print in decimal and
read back to the same value; booleans print as `true`/`false`; a
zero-offset datetime with in-range fields prints as the zero-padded,
`Z`-terminated RFC-3339 text, which `parse_date` reads back to exactly
the same datetime consuming the whole text, and the fractional-second
part (and hence the full stop) appears iff the microsecond field is
positive. -/
theorem claim_C2 (s : List Char) (n : Int) (b : Bool) (dt : datetime)
    (hoz : dt.hour_offset = 0) (hmz : dt.minute_offset = 0)
    (hy1 : 0 ≤ dt.year) (hy2 : dt.year ≤ 9999)
    (hmo1 : 0 ≤ dt.month) (hmo2 : dt.month ≤ 99)
    (hd1 : 0 ≤ dt.day) (hd2 : dt.day ≤ 99)
    (hh1 : 0 ≤ dt.hour) (hh2 : dt.hour ≤ 99)
    (hmi1 : 0 ≤ dt.minute) (hmi2 : dt.minute ≤ 99)
    (hs1 : 0 ≤ dt.second) (hs2 : dt.second ≤ 99)
    (hu1 : 0 ≤ dt.microsecond) :
    print_node (.str s) = s
    ∧ print_node (.int n) = int_to_dec n
    ∧ read_dec (print_node (.int n)) = n
    ∧ print_node (.bool b) = (if b then chars "true" else chars "false")
    ∧ (parse_date_t (print_node (.date dt))).1 = .ok (dt, [])
    ∧ ('.' ∈ print_node (.date dt) ↔ 0 < dt.microsecond) := by
  obtain ⟨y, mo, dd, hh, mi, se, mu, ho, mf⟩ := dt
  dsimp only at hoz hmz hy1 hy2 hmo1 hmo2 hd1 hd2 hh1 hh2 hmi1 hmi2 hs1 hs2 hu1 ⊢
  subst hoz
  subst hmz
  refine ⟨rfl, rfl, read_dec_int_to_dec n, rfl, ?_, ?_⟩
  · show (parse_date_t (print_datetime ⟨y, mo, dd, hh, mi, se, mu, 0, 0⟩)).1 = _
    rw [print_datetime_eq]
    exact parse_date_rfc3339 y mo dd hh mi se mu hy1 hy2 hmo1 hmo2 hd1 hd2
      hh1 hh2 hmi1 hmi2 hs1 hs2 hu1
  · show '.' ∈ print_datetime ⟨y, mo, dd, hh, mi, se, mu, 0, 0⟩ ↔ 0 < mu
    rw [print_datetime_eq]
    exact dot_mem_rfc3339 y mo dd hh mi se mu hy1 hmo1 hd1 hh1 hmi1 hs1

/-- C2 counterexample to the quoting part of the claim: a string value
containing a double quote, a backslash and a newline is printed verbatim;
in particular the output does not start with a quote and contains no
escape sequence. -/
theorem claim_C2_counterexample :
    print_node (.str (chars "a\"b\\c\nd")) = chars "a\"b\\c\nd"
    ∧ (print_node (.str (chars "a\"b\\c\nd"))).head? ≠ some '"' := by
  exact ⟨rfl, by decide⟩

/-- Witness for C2 at concrete inputs: the string `abc`, the integer
`-42`, the boolean `true` and the datetime 1979-05-27T07:32:00.999999Z. -/
theorem claim_C2_witness :
    print_node (.str (chars "abc")) = chars "abc"
    ∧ print_node (.int (-42)) = int_to_dec (-42)
    ∧ read_dec (print_node (.int (-42))) = -42
    ∧ print_node (.bool true) = (if true then chars "true" else chars "false")
    ∧ (parse_date_t (print_node
        (.date ⟨1979, 5, 27, 7, 32, 0, 999999, 0, 0⟩))).1
        = .ok (⟨1979, 5, 27, 7, 32, 0, 999999, 0, 0⟩, [])
    ∧ ('.' ∈ print_node (.date ⟨1979, 5, 27, 7, 32, 0, 999999, 0, 0⟩)
        ↔ (0 : Int) < 999999) :=
  claim_C2 (chars "abc") (-42) true ⟨1979, 5, 27, 7, 32, 0, 999999, 0, 0⟩
    rfl rfl (by decide) (by decide) (by decide) (by decide) (by decide)
    (by decide) (by decide) (by decide) (by decide) (by decide) (by decide)
    (by decide) (by decide)

/-- C1. Amended round-trip: a document with a string value already
breaks the claim beyond its stated literal/multi-line exception (the
counterexample prints the string unquoted and the reparse fails), so the
general statement is false; the round-trip does hold, and is proved
here, for flat tables whose values are `int64_t`-range integers,
booleans, zero-offset datetimes with in-range fields, and homogeneous
integer arrays, under clean pairwise-distinct bare keys (nonempty,
containing no space, tab, `#`, bracket, `=`, newline or quote). -/
theorem claim_C1 (t : Table)
    (hkeys : ∀ p ∈ t, p.1 ≠ [] ∧ ∀ d ∈ p.1,
      d ∉ ([' ', '\t', '#', '[', ']', '=', '\n', '"'] : List Char))
    (hvals : ∀ p ∈ t, match p.2 with
      | Node.int n => -(2 ^ 63) ≤ n ∧ n ≤ 2 ^ 63 - 1
      | Node.bool _ => True
      | Node.date dt => dt.hour_offset = 0 ∧ dt.minute_offset = 0
          ∧ 0 ≤ dt.year ∧ dt.year ≤ 9999 ∧ 0 ≤ dt.month ∧ dt.month ≤ 99
          ∧ 0 ≤ dt.day ∧ dt.day ≤ 99 ∧ 0 ≤ dt.hour ∧ dt.hour ≤ 99
          ∧ 0 ≤ dt.minute ∧ dt.minute ≤ 99 ∧ 0 ≤ dt.second ∧ dt.second ≤ 99
          ∧ 0 ≤ dt.microsecond
      | Node.arr xs => ∃ ns : List Int, xs = ns.map Node.int
          ∧ ∀ m ∈ ns, -(2 ^ 63) ≤ m ∧ m ≤ 2 ^ 63 - 1
      | _ => False)
    (hnodup : (t.map Prod.fst).Nodup) :
    parse (print_root t) = .ok t := by
  cases t with
  | nil => rfl
  | cons p t2 =>
      obtain ⟨kp, vp⟩ := p
      have hscal : ∀ q ∈ (kp, vp) :: t2,
          (∃ n, q.2 = Node.int n) ∨ (∃ b, q.2 = Node.bool b)
          ∨ (∃ dt, q.2 = Node.date dt) ∨ (∃ xs, q.2 = Node.arr xs) := by
        intro q hq
        obtain ⟨kq, vq⟩ := q
        have h := hvals (kq, vq) hq
        cases vq with
        | int n => exact Or.inl ⟨n, rfl⟩
        | bool b => exact Or.inr (Or.inl ⟨b, rfl⟩)
        | date dt => exact Or.inr (Or.inr (Or.inl ⟨dt, rfl⟩))
        | arr xs => exact Or.inr (Or.inr (Or.inr ⟨xs, rfl⟩))
        | str s => exact h.elim
        | float r => exact h.elim
        | table tt => exact h.elim
        | tarray ts => exact h.elim
      have hnl : ∀ q ∈ (kp, vp) :: t2, ∀ c ∈ print_node q.2, c ≠ '\n' := by
        intro q hq
        have h := hvals q hq
        rcases hscal q hq with ⟨n, hn⟩ | ⟨b, hb⟩ | ⟨dt, hd⟩ | ⟨xs, hx⟩
        · rw [hn]
          exact int_to_dec_no_nl n
        · rw [hb]
          exact bool_no_nl b
        · rw [hd] at h ⊢
          obtain ⟨dty, dtmo, dtdd, dthh, dtmi, dtse, dtmu, dtho, dtmf⟩ := dt
          obtain ⟨hoz, hmz, hy1, hy2, hmo1, hmo2, hd1, hd2, hh1, hh2, hmi1,
            hmi2, hs1, hs2, hu1⟩ := h
          obtain rfl : dtho = 0 := hoz
          obtain rfl : dtmf = 0 := hmz
          show ∀ c ∈ print_datetime ⟨dty, dtmo, dtdd, dthh, dtmi, dtse, dtmu, 0, 0⟩,
            c ≠ '\n'
          rw [print_datetime_eq]
          exact rfc3339_no_nl dty dtmo dtdd dthh dtmi dtse dtmu
            hy1 hmo1 hd1 hh1 hmi1 hs1 hu1
        · rw [hx] at h ⊢
          obtain ⟨ns, hns, hrange⟩ := h
          subst hns
          exact arr_no_nl ns
      have hcwv : ∀ q ∈ (kp, vp) :: t2,
          consume_whitespace (print_node q.2) = print_node q.2 := by
        intro q hq
        have h := hvals q hq
        rcases hscal q hq with ⟨n, hn⟩ | ⟨b, hb⟩ | ⟨dt, hd⟩ | ⟨xs, hx⟩
        · rw [hn]
          exact cw_int n
        · rw [hb]
          exact cw_bool b
        · rw [hd] at h ⊢
          obtain ⟨dty, dtmo, dtdd, dthh, dtmi, dtse, dtmu, dtho, dtmf⟩ := dt
          obtain ⟨hoz, hmz, hy1, hy2, -⟩ := h
          obtain rfl : dtho = 0 := hoz
          obtain rfl : dtmf = 0 := hmz
          show consume_whitespace
              (print_datetime ⟨dty, dtmo, dtdd, dthh, dtmi, dtse, dtmu, 0, 0⟩)
            = print_datetime ⟨dty, dtmo, dtdd, dthh, dtmi, dtse, dtmu, 0, 0⟩
          rw [print_datetime_eq]
          exact cw_date dty dtmo dtdd dthh dtmi dtse dtmu hy1 hy2
        · rw [hx]
          rfl
      have hpos : 1 ≤ (print_table_body 0 ((kp, vp) :: t2)).length := by
        rw [print_flat_shape kp vp t2 (hscal (kp, vp) (List.mem_cons_self _ _))]
        simp only [List.length_append, List.length_cons]
        omega
      have hvp : ∀ q ∈ (kp, vp) :: t2, ∀ ls,
          parse_value ((print_table_body 0 ((kp, vp) :: t2)).length - 1 + 1)
            (print_node q.2) ls = .ok (q.2, [], ls) := by
        intro q hq ls
        have h := hvals q hq
        rcases hscal q hq with ⟨n, hn⟩ | ⟨b, hb⟩ | ⟨dt, hd⟩ | ⟨xs, hx⟩
        · rw [hn] at h ⊢
          obtain ⟨hlo, hhi⟩ := h
          exact parse_value_int _ n ls hlo hhi
        · rw [hb]
          exact parse_value_bool _ b ls
        · rw [hd] at h ⊢
          obtain ⟨dty, dtmo, dtdd, dthh, dtmi, dtse, dtmu, dtho, dtmf⟩ := dt
          obtain ⟨hoz, hmz, hy1, hy2, hmo1, hmo2, hd1, hd2, hh1, hh2, hmi1,
            hmi2, hs1, hs2, hu1⟩ := h
          obtain rfl : dtho = 0 := hoz
          obtain rfl : dtmf = 0 := hmz
          show parse_value _
            (print_datetime ⟨dty, dtmo, dtdd, dthh, dtmi, dtse, dtmu, 0, 0⟩) ls
            = .ok (.date ⟨dty, dtmo, dtdd, dthh, dtmi, dtse, dtmu, 0, 0⟩, [], ls)
          rw [print_datetime_eq]
          exact parse_value_date _ dty dtmo dtdd dthh dtmi dtse dtmu ls
            hy1 hy2 hmo1 hmo2 hd1 hd2 hh1 hh2 hmi1 hmi2 hs1 hs2 hu1
        · rw [hx] at h ⊢
          obtain ⟨ns, hns, hrange⟩ := h
          subst hns
          have hble : ns.length + 3
              ≤ (print_table_body 0 ((kp, vp) :: t2)).length := by
            have h1 := entry_print_le ((kp, vp) :: t2) q hq hscal
            have h2 := pae_len ns
            rw [hx] at h1
            rw [show print_node (.arr (ns.map Node.int))
              = '[' :: ' ' :: print_arr_elems (ns.map Node.int) from rfl] at h1
            simp only [List.length_cons] at h1
            omega
          rw [show (print_table_body 0 ((kp, vp) :: t2)).length - 1 + 1
            = ns.length + ((print_table_body 0 ((kp, vp) :: t2)).length - 1 + 1
                - ns.length - 3) + 3 from by omega]
          exact parse_value_arr ns _ ls hrange
      simp only [parse, print_root]
      rw [getlines_print_flat ((kp, vp) :: t2) hkeys hscal hnl]
      rw [show (print_table_body 0 ((kp, vp) :: t2)).length + 1
        = ((print_table_body 0 ((kp, vp) :: t2)).length - 1) + 2 from by omega]
      rw [parse_lines_flat ((print_table_body 0 ((kp, vp) :: t2)).length - 1)
        ((kp, vp) :: t2) []
        ((((kp, vp) :: t2).map
          (fun p => p.1 ++ chars " = " ++ print_node p.2)).length + 1)
        (by simp only [List.length_map, List.length_cons]; omega)
        hkeys hcwv hvp (by rw [List.nil_append]; exact hnodup)]
      rfl

/-- C1 counterexample: the document `s = "x"` parses fine, but printing
the resulting tree emits the string unquoted, and reparsing that output
fails to determine the value type of `x`. -/
theorem claim_C1_counterexample :
    parse (chars "s = \"x\"") = .ok [(chars "s", .str (chars "x"))]
    ∧ parse (print_root [(chars "s", .str (chars "x"))])
        = .error .failedToParseValueType := ⟨rfl, rfl⟩

/-- Witness for C1: a four-entry table holding an integer, a boolean, a
zero-offset datetime and a two-element integer array round-trips through
the printer and the parser. -/
theorem claim_C1_witness :
    parse (print_root
        [(chars "a", .int 3), (chars "b", .bool true),
         (chars "d", .date ⟨1979, 5, 27, 7, 32, 0, 0, 0, 0⟩),
         (chars "e", .arr [.int 10, .int (-20)])])
      = .ok [(chars "a", .int 3), (chars "b", .bool true),
         (chars "d", .date ⟨1979, 5, 27, 7, 32, 0, 0, 0, 0⟩),
         (chars "e", .arr [.int 10, .int (-20)])] :=
  claim_C1
    [(chars "a", .int 3), (chars "b", .bool true),
     (chars "d", .date ⟨1979, 5, 27, 7, 32, 0, 0, 0, 0⟩),
     (chars "e", .arr [.int 10, .int (-20)])]
    (by decide)
    (by
      intro p hp
      simp only [List.mem_cons, List.not_mem_nil, or_false] at hp
      rcases hp with rfl | rfl | rfl | rfl
      · exact ⟨by decide, by decide⟩
      · trivial
      · exact ⟨rfl, rfl, by decide, by decide, by decide, by decide, by decide,
          by decide, by decide, by decide, by decide, by decide, by decide,
          by decide, by decide⟩
      · exact ⟨[10, -20], rfl, by decide⟩)
    (by decide)

end Cpptoml
